import Mathlib

/-!
Verification of the wire-format writer (src/writer.js) and the reflection
model (Field in src/unnamed/part_000, Namespace in src/unnamed/part_001) of
the protobuf.js encoder core.

The writer is modelled with chunks as lists of bytes (`Uint8Array` cells are
natural numbers stored modulo 256; a fresh chunk is zero-filled, and an
out-of-bounds store is ignored, as on a typed array).  JavaScript strings are
modelled as lists of UTF-16 code units.  Mutation is modelled by explicit
state passing; a thrown exception is an `Except.error`.
-/

namespace Proto

/-- Snapshot of the four buffer fields, as captured by `State(writer)` in the
source (`this.bufs`, `this.buf`, `this.pos`, `this.len`). -/
structure WState where
  bufs : List (List Nat)
  buf  : Option (List Nat)
  pos  : Nat
  len  : Nat
deriving DecidableEq, Repr

/-- Writer state: current chunk `buf` (`none` models `null`), write cursor
`pos`, current chunk length `len`, sealed chunks `bufs`, and the fork stack
(`this._stack`). -/
structure Writer where
  bufs : List (List Nat)
  buf  : Option (List Nat)
  pos  : Nat
  len  : Nat
  stack : List WState
deriving DecidableEq, Repr

/-- The writer constructor: `buf = null, pos = 0, len = 0, bufs = [], _stack = []`. -/
def Writer.init : Writer := ⟨[], none, 0, 0, []⟩

/-- `Writer.BUFFER_SIZE = 256`. -/
def Writer.BUFFER_SIZE : Nat := 256

/-- `expand(writeLength)`: seal `buf[0..pos]` onto `bufs` when `pos` is non-zero,
allocate a fresh zero-filled chunk of size `max(writeLength, BUFFER_SIZE)`, reset
the cursor. -/
def Writer.expand (w : Writer) (writeLength : Nat) : Writer :=
  let bufs := if w.pos ≠ 0 then w.bufs ++ [((w.buf.getD []).take w.pos)] else w.bufs
  let size := max writeLength Writer.BUFFER_SIZE
  { w with bufs := bufs, buf := some (List.replicate size 0), pos := 0, len := size }

/-- `this.buf[this.pos++] = b`: a typed-array store keeps `b % 256`; the store is
ignored when the index is out of bounds, the cursor advances regardless. -/
def Writer.putRaw (w : Writer) (b : Nat) : Writer :=
  { w with buf := w.buf.map (fun l => l.set w.pos (b % 256)), pos := w.pos + 1 }

/-- Writes a whole list of bytes through `buf[pos++] = ·` stores (the body of the
string-encoding loop). -/
def Writer.putRawList (w : Writer) (bs : List Nat) : Writer :=
  bs.foldl Writer.putRaw w

/-- `tag(id, wireType)`: one byte `(id << 3 | wireType & 7) & 255` after ensuring
one byte of room. -/
def Writer.tag (w : Writer) (id wireType : Nat) : Writer :=
  let w := if w.pos + 1 > w.len then w.expand 1 else w
  w.putRaw ((id <<< 3 ||| (wireType &&& 7)) &&& 255)

/-- The fast route of `uint32`: `while (value > 127) buf[pos++] = value & 127 | 128,
value >>>= 7`, then the trailing `buf[pos++] = value`, with no capacity checks. -/
def Writer.u32Fast (w : Writer) (value : Nat) : Writer :=
  if value > 127 then
    (w.putRaw ((value &&& 127) ||| 128)).u32Fast (value >>> 7)
  else
    w.putRaw value
termination_by value
decreasing_by
  simp only [Nat.shiftRight_eq_div_pow]
  omega

/-- The slow route of `uint32`: the same loop with an `expand(1)` check before
every byte, including the trailing one. -/
def Writer.u32Slow (w : Writer) (value : Nat) : Writer :=
  if value > 127 then
    let w := if w.pos ≥ w.len then w.expand 1 else w
    (w.putRaw ((value &&& 127) ||| 128)).u32Slow (value >>> 7)
  else
    let w := if w.pos ≥ w.len then w.expand 1 else w
    w.putRaw value
termination_by value
decreasing_by
  simp only [Nat.shiftRight_eq_div_pow]
  omega

/-- `uint32(value)`: `value >>>= 0` (reduce modulo 2^32), then the varint loop,
fast route when `pos + 4 < len`. -/
def Writer.uint32 (w : Writer) (value : Nat) : Writer :=
  let v := value % 2 ^ 32
  if w.pos + 4 < w.len then w.u32Fast v else w.u32Slow v

/-- `int32` is an alias of `uint32` in the source. -/
def Writer.int32 : Writer → Nat → Writer := Writer.uint32

/-- `bool(value)`: one byte, 1 or 0, after ensuring room. -/
def Writer.bool (w : Writer) (value : Bool) : Writer :=
  let w := if w.pos ≥ w.len then w.expand 1 else w
  w.putRaw (if value then 1 else 0)

/-- `fixed32(value)`: four little-endian bytes of `value >>> 0`. -/
def Writer.fixed32 (w : Writer) (value : Nat) : Writer :=
  let w := if w.pos + 4 > w.len then w.expand 4 else w
  let v := value % 2 ^ 32
  ((((w.putRaw (v &&& 255)).putRaw ((v >>> 8) &&& 255)).putRaw
    ((v >>> 16) &&& 255)).putRaw (v >>> 24))

/-- `_set.call(this.buf, value, pos)`: copy `value` into the chunk starting at
`pos` (typed-array stores, modulo 256, out-of-bounds ignored). -/
def setRange (l : List Nat) (p : Nat) : List Nat → List Nat
  | [] => l
  | b :: bs => setRange (l.set p (b % 256)) (p + 1) bs

/-- `bytes(value)`: `uint32(length)` then the raw bytes; an empty input writes the
single length byte 0. -/
def Writer.bytes (w : Writer) (value : List Nat) : Writer :=
  let len := value.length
  if len ≠ 0 then
    let w := w.uint32 len
    let w := if w.pos + len > w.len then w.expand len else w
    { w with buf := w.buf.map (fun l => setRange l w.pos value), pos := w.pos + len }
  else
    let w := if w.pos ≥ w.len then w.expand 1 else w
    w.putRaw 0

/-- `State(writer)`. -/
def Writer.state (w : Writer) : WState := ⟨w.bufs, w.buf, w.pos, w.len⟩

/-- `State.prototype.apply(writer)`. -/
def WState.applyTo (s : WState) (w : Writer) : Writer :=
  { w with bufs := s.bufs, buf := s.buf, pos := s.pos, len := s.len }

/-- `fork()`: push a snapshot and begin a fresh sub-stream. -/
def Writer.fork (w : Writer) : Writer :=
  { bufs := [], buf := none, pos := 0, len := 0, stack := w.state :: w.stack }

/-- `reset()`: pop and apply the top snapshot; with an empty stack, clear. -/
def Writer.reset (w : Writer) : Writer :=
  match w.stack with
  | s :: rest => s.applyTo { w with stack := rest }
  | [] => { w with bufs := [], buf := none, pos := 0, len := 0 }

/-- `finish()`: capture `(bufs, buf, pos, len)`, perform the implicit `reset()`,
and return the sealed chunks concatenated with `buf[0..pos]` (the source's
alloc-and-copy loop builds exactly that concatenation); with a `null` buffer the
shared empty array is returned.  The pair is (returned bytes, writer after). -/
def Writer.finish (w : Writer) : List Nat × Writer :=
  let bufs := w.bufs
  let buf := w.buf
  let pos := w.pos
  let len := w.len
  let w' := w.reset
  match buf with
  | none => ([], w')
  | some b =>
    let b := if pos < len then b.take pos else b
    (bufs.flatten ++ b, w')

/-- The byte sequence a writer state denotes: sealed chunks then `buf[0..pos]`. -/
def Writer.emitted (w : Writer) : List Nat :=
  w.bufs.flatten ++ ((w.buf.getD []).take w.pos)

/-- State invariant: the chunk's length is `len`, `pos ≤ len` and a live chunk is
non-empty; a `null` chunk means the pristine state. -/
def WState.inv (s : WState) : Bool :=
  match s.buf with
  | some b => decide (b.length = s.len) && decide (s.pos ≤ s.len) && decide (0 < s.len)
  | none => decide (s.pos = 0) && decide (s.len = 0) && decide (s.bufs = [])

/-- Writer invariant: the live state and every stacked snapshot satisfy `WState.inv`. -/
def Writer.Inv (w : Writer) : Prop :=
  w.state.inv = true ∧ ∀ s ∈ w.stack, s.inv = true

instance (w : Writer) : Decidable w.Inv :=
  inferInstanceAs (Decidable (w.state.inv = true ∧ ∀ s ∈ w.stack, s.inv = true))

/-! ### Varint byte sequences

`varintBytes v` is exactly the byte sequence the `uint32` loop stores for a
value `v`: 7-bit groups, least-significant first, continuation bit (0x80) on
every byte but the last. -/

def varintBytes (v : Nat) : List Nat :=
  if v > 127 then ((v &&& 127) ||| 128) :: varintBytes (v >>> 7) else [v]
termination_by v
decreasing_by
  simp only [Nat.shiftRight_eq_div_pow]
  omega

/-- Varint decoding: sum of the 7-bit groups of the bytes, LSB-first. -/
def varintDecode : List Nat → Nat
  | [] => 0
  | b :: rest => b % 128 + 128 * varintDecode rest

/-! ### UTF-16 / UTF-8 (the two loops of `Writer.prototype.string`)

JavaScript strings are lists of UTF-16 code units. -/

/-- `(c & 0xFC00) === 0xD800`: high (lead) surrogate test from the source. -/
def isHighSurr (c : Nat) : Bool := c &&& 0xFC00 == 0xD800

/-- `(c & 0xFC00) === 0xDC00`: low (trail) surrogate test from the source. -/
def isLowSurr (c : Nat) : Bool := c &&& 0xFC00 == 0xDC00

/-- First loop of `string`: the UTF-8 byte length of a code-unit list, with
surrogate pairs counting 4 bytes and a lone surrogate 3. -/
def utf8Len : List Nat → Nat
  | [] => 0
  | c1 :: rest =>
    if c1 < 128 then 1 + utf8Len rest
    else if c1 < 2048 then 2 + utf8Len rest
    else if isHighSurr c1 then
      match rest with
      | c2 :: rest2 =>
        if isLowSurr c2 then 4 + utf8Len rest2 else 3 + utf8Len (c2 :: rest2)
      | [] => 3
    else 3 + utf8Len rest
termination_by l => l.length
decreasing_by all_goals (simp only [List.length_cons]; omega)

/-- The three bytes stored for a BMP code unit at or above 2048. -/
def enc3 (c1 : Nat) : List Nat :=
  [(c1 >>> 12) ||| 224, ((c1 >>> 6) &&& 63) ||| 128, (c1 &&& 63) ||| 128]

/-- Second loop of `string`: the bytes stored by the encoding loop. -/
def utf8Enc : List Nat → List Nat
  | [] => []
  | c1 :: rest =>
    if c1 < 128 then c1 :: utf8Enc rest
    else if c1 < 2048 then ((c1 >>> 6) ||| 192) :: ((c1 &&& 63) ||| 128) :: utf8Enc rest
    else if isHighSurr c1 then
      match rest with
      | c2 :: rest2 =>
        if isLowSurr c2 then
          ((0x10000 + ((c1 &&& 0x3FF) <<< 10) + (c2 &&& 0x3FF)) >>> 18 ||| 240) ::
          (((0x10000 + ((c1 &&& 0x3FF) <<< 10) + (c2 &&& 0x3FF)) >>> 12) &&& 63 ||| 128) ::
          (((0x10000 + ((c1 &&& 0x3FF) <<< 10) + (c2 &&& 0x3FF)) >>> 6) &&& 63 ||| 128) ::
          ((0x10000 + ((c1 &&& 0x3FF) <<< 10) + (c2 &&& 0x3FF)) &&& 63 ||| 128) ::
          utf8Enc rest2
        else enc3 c1 ++ utf8Enc (c2 :: rest2)
      | [] => enc3 c1
    else enc3 c1 ++ utf8Enc rest
termination_by l => l.length
decreasing_by all_goals (simp only [List.length_cons]; omega)

/-- Well-formed UTF-16: every unit below 2^16 and surrogates properly paired. -/
def wfUtf16 : List Nat → Bool
  | [] => true
  | c1 :: rest =>
    if 65536 ≤ c1 then false
    else if isHighSurr c1 then
      match rest with
      | c2 :: rest2 => isLowSurr c2 && wfUtf16 rest2
      | [] => false
    else !isLowSurr c1 && wfUtf16 rest

/-- The Unicode code points denoted by a UTF-16 unit list (pairs joined by the
same formula the encoder uses). -/
def codePoints : List Nat → List Nat
  | [] => []
  | c1 :: rest =>
    if isHighSurr c1 then
      match rest with
      | c2 :: rest2 =>
        (0x10000 + ((c1 &&& 0x3FF) <<< 10) + (c2 &&& 0x3FF)) :: codePoints rest2
      | [] => [c1]
    else c1 :: codePoints rest

/-- UTF-8 continuation-byte test. -/
def isCont (b : Nat) : Bool := 128 ≤ b && b < 192

/-- Standard UTF-8 decoding to code points; `none` on malformed input. -/
def utf8Decode : List Nat → Option (List Nat)
  | [] => some []
  | b1 :: rest =>
    if b1 < 128 then (utf8Decode rest).map (fun cs => b1 :: cs)
    else if b1 < 192 then none
    else if b1 < 224 then
      match rest with
      | [] => none
      | b2 :: r =>
        if isCont b2 then
          (utf8Decode r).map (fun cs => ((b1 &&& 31) * 64 + (b2 &&& 63)) :: cs)
        else none
    else if b1 < 240 then
      match rest with
      | [] => none
      | b2 :: r2 =>
        match r2 with
        | [] => none
        | b3 :: r =>
          if isCont b2 && isCont b3 then
            (utf8Decode r).map (fun cs =>
              ((b1 &&& 15) * 4096 + (b2 &&& 63) * 64 + (b3 &&& 63)) :: cs)
          else none
    else if b1 < 248 then
      match rest with
      | [] => none
      | b2 :: r2 =>
        match r2 with
        | [] => none
        | b3 :: r3 =>
          match r3 with
          | [] => none
          | b4 :: r =>
            if isCont b2 && isCont b3 && isCont b4 then
              (utf8Decode r).map (fun cs =>
                ((b1 &&& 7) * 262144 + (b2 &&& 63) * 4096 + (b3 &&& 63) * 64 +
                  (b4 &&& 63)) :: cs)
            else none
    else none

/-- `string(value)`: the first loop computes the byte length, `uint32(blen)` is
emitted, room is ensured, and the encoding loop stores the bytes; the empty
string writes the single length byte 0. -/
def Writer.string (w : Writer) (value : List Nat) : Writer :=
  if value.length ≠ 0 then
    let blen := utf8Len value
    let w := w.uint32 blen
    let w := if w.pos + blen > w.len then w.expand blen else w
    w.putRawList (utf8Enc value)
  else
    let w := if w.pos ≥ w.len then w.expand 1 else w
    w.putRaw 0

/-! ### Operation sequences over a writer -/

/-- The public writer operations exercised by the claims. -/
inductive WOp where
  | tagOp (id wireType : Nat)
  | uint32Op (value : Nat)
  | boolOp (value : Bool)
  | fixed32Op (value : Nat)
  | bytesOp (value : List Nat)
  | stringOp (value : List Nat)
  | forkOp
  | resetOp
  | finishOp
deriving DecidableEq, Repr

/-- Run one operation (the bytes a `finish` returns are discarded; its state
effect is kept). -/
def WOp.applyOp : WOp → Writer → Writer
  | .tagOp id wt, w => w.tag id wt
  | .uint32Op v, w => w.uint32 v
  | .boolOp v, w => w.bool v
  | .fixed32Op v, w => w.fixed32 v
  | .bytesOp v, w => w.bytes v
  | .stringOp v, w => w.string v
  | .forkOp, w => w.fork
  | .resetOp, w => w.reset
  | .finishOp, w => (w.finish).2

/-- Run a sequence of operations left to right. -/
def applyOps (ops : List WOp) (w : Writer) : Writer :=
  ops.foldl (fun w op => op.applyOp w) w

/-- Primitive writes: everything except fork, reset and finish. -/
def WOp.prim : WOp → Bool
  | .forkOp => false
  | .resetOp => false
  | .finishOp => false
  | _ => true

/-- The bytes each primitive write appends to the emitted stream. -/
def WOp.opBytes : WOp → List Nat
  | .tagOp id wt => [(id <<< 3 ||| (wt &&& 7)) &&& 255]
  | .uint32Op v => varintBytes (v % 2 ^ 32)
  | .boolOp v => [if v then 1 else 0]
  | .fixed32Op v => [(v % 2 ^ 32) &&& 255, ((v % 2 ^ 32) >>> 8) &&& 255,
      ((v % 2 ^ 32) >>> 16) &&& 255, (v % 2 ^ 32) >>> 24]
  | .bytesOp v =>
      if v.length ≠ 0 then varintBytes (v.length % 2 ^ 32) ++ v.map (fun x => x % 256)
      else [0]
  | .stringOp s =>
      if s.length ≠ 0 then varintBytes (utf8Len s % 2 ^ 32) ++ (utf8Enc s).map (fun x => x % 256)
      else [0]
  | .forkOp => []
  | .resetOp => []
  | .finishOp => []

/-- The bytes a sequence of primitive writes appends. -/
def opsBytes (ops : List WOp) : List Nat := (ops.map WOp.opBytes).flatten

/-! ### Field.encode, packed branch (src/unnamed/part_000) -/

/-- The packable scalar types embedded here (members of
`types.packableWireTypes` whose writers are modelled); dispatch target of
`writer[type](value)`. -/
inductive ScalarType where
  | uint32T
  | int32T
  | boolT
  | fixed32T
deriving DecidableEq, Repr

/-- `writer[type](v)` for the embedded scalar types (numbers are truthy iff
non-zero, hence `bool` receives `v != 0`). -/
def ScalarType.write : ScalarType → Writer → Nat → Writer
  | .uint32T, w, v => w.uint32 v
  | .int32T, w, v => w.int32 v
  | .boolT, w, v => w.bool (v != 0)
  | .fixed32T, w, v => w.fixed32 v

/-- The bytes one element contributes inside a packed block. -/
def ScalarType.enc : ScalarType → Nat → List Nat
  | .uint32T, v => varintBytes (v % 2 ^ 32)
  | .int32T, v => varintBytes (v % 2 ^ 32)
  | .boolT, v => [if v != 0 then 1 else 0]
  | .fixed32T, v => [(v % 2 ^ 32) &&& 255, ((v % 2 ^ 32) >>> 8) &&& 255,
      ((v % 2 ^ 32) >>> 16) &&& 255, (v % 2 ^ 32) >>> 24]

/-- The packed branch of `encode_internal`: `writer.fork(); while (i < k)
writer[type](value[i++]); var buf = writer.finish(); if (buf.length)
writer.tag(this.id, 2).bytes(buf);`. -/
def encodePacked (t : ScalarType) (id : Nat) (value : List Nat) (w : Writer) : Writer :=
  let w1 := w.fork
  let w2 := value.foldl (fun wv v => t.write wv v) w1
  let r := w2.finish
  if r.1.length ≠ 0 then (r.2.tag id 2).bytes r.1 else r.2

/-! ### Reflection model (Namespace in src/unnamed/part_001, Field in
src/unnamed/part_000)

Reflection objects form a tree; parent pointers are represented by explicit
ancestor lists where needed.  A thrown error is an `Except.error`.  The class
hierarchy of the kinds: `Type` extends `Namespace` (spec section 4.6) and
`Service` is a namespace-like container in the reference library; `Enum` and
`Field` are leaves without a `lookup` method. -/

inductive RKind where
  | nsK
  | typeK
  | enumK
  | serviceK
  | fieldK
deriving DecidableEq, Repr

/-- A reflection object: name, kind, the `nested` map (`none` models
`undefined`; the list keeps JavaScript property insertion order, keys are the
objects' names), and the `extend` property of fields. -/
inductive RObj where
  | mk (name : String) (kind : RKind) (nested : Option (List RObj)) (ext : Option String)
deriving Repr

def RObj.name : RObj → String
  | .mk n _ _ _ => n

def RObj.kind : RObj → RKind
  | .mk _ k _ _ => k

def RObj.nested : RObj → Option (List RObj)
  | .mk _ _ ns _ => ns

def RObj.ext : RObj → Option String
  | .mk _ _ _ e => e

def RObj.withNested : RObj → Option (List RObj) → RObj
  | .mk n k _ e, x => .mk n k x e

/-- `object instanceof Namespace`: Namespace itself and Type. -/
def RObj.isNamespaceInst (o : RObj) : Bool :=
  o.kind == RKind.nsK || o.kind == RKind.typeK

/-- `object instanceof Type`. -/
def RObj.isTypeInst (o : RObj) : Bool := o.kind == RKind.typeK

/-- Whether the object's class has a `lookup` method (`found.lookup` is truthy):
the Namespace subclasses. -/
def RObj.hasLookup (o : RObj) : Bool :=
  o.kind == RKind.nsK || o.kind == RKind.typeK || o.kind == RKind.serviceK

/-- `get(name)`: `this.nested && this.nested[name] || null`. -/
def getNested (nested : Option (List RObj)) (name : String) : Option RObj :=
  match nested with
  | some l => l.find? (fun o => o.name == name)
  | none => none

/-- The `empty` getter (part_001 lines 43-47):
`Boolean(this.nested && Object.keys(this.nested).length)`.  Note that this is
true exactly when the map exists and is NON-empty, despite the name and its
documentation ("Determines whether this namespace is empty"). -/
def RObj.emptyProp (o : RObj) : Bool :=
  match o.nested with
  | some l => l.length != 0
  | none => false

/-- `remove(object)` (part_001 lines 173-183): assert membership (the
`object.parent !== this` check; members are identified by name here), delete
the mapping, then `if (this.empty) this.nested = undefined`. -/
def removeObj (self : RObj) (objName : String) : Except String RObj :=
  match getNested self.nested objName with
  | none => .error "not a member"
  | some _ =>
    let self2 := self.withNested
      (some ((self.nested.getD []).filter (fun o => o.name != objName)))
    if self2.emptyProp then .ok (self2.withNested none) else .ok self2

/-- JavaScript property assignment `this.nested[object.name] = object` on an
existing map: replace in place when the key exists, else append. -/
def upsert (l : List RObj) (obj : RObj) : List RObj :=
  if l.any (fun o => o.name == obj.name) then
    l.map (fun o => if o.name == obj.name then obj else o)
  else l ++ [obj]

/-- The final `this.nested[object.name] = object` assignment of `add`; in
JavaScript this throws a `TypeError` when `nested` is `undefined`. -/
def installObj (self obj : RObj) : Except String RObj :=
  match self.nested with
  | none => .error "TypeError: cannot set property of undefined"
  | some l => .ok (self.withNested (some (upsert l obj)))

/-- `each(fn, ctx)` (part_001 lines 120-130): iterate the nested objects,
stopping at — and returning — the first result different from `undefined`
(`none` models `undefined`). -/
def eachBreak {β : Type} (fn : RObj → Option β) : List RObj → Option β
  | [] => none
  | c :: rest =>
    match fn c with
    | some r => some r
    | none => eachBreak fn rest

/-- `add(object)` (part_001 lines 146-166).  The constructor check passes for
all modelled kinds; a Field without `extend` is rejected.  On a name collision
with a plain Namespace while adding a Type, the source runs
`prev.each(object.add, object)`: since `add` returns `this` — never
`undefined` — `each` stops after the FIRST child, so only the first nested
child is moved (the `match` below inlines `eachBreak` at that call site);
then `this.remove(prev)` runs, and finally the
`this.nested[object.name] = object` assignment. -/
def addObj : RObj → RObj → Except String RObj
  | RObj.mk sn sk snested sext, obj =>
    if obj.kind == RKind.fieldK && obj.ext == none then
      .error "object: an extension field expected"
    else
      match snested with
      | none => installObj (RObj.mk sn sk (some []) sext) obj
      | some l =>
        match h : l.find? (fun o => o.name == obj.name) with
        | some prev =>
          if prev.isNamespaceInst && !prev.isTypeInst && obj.isTypeInst then
            match h2 : prev.nested with
            | some (c :: _) =>
              (addObj obj c).bind (fun obj2 =>
                (removeObj (RObj.mk sn sk (some l) sext) prev.name).bind (fun self2 =>
                  installObj self2 obj2))
            | _ =>
              (removeObj (RObj.mk sn sk (some l) sext) prev.name).bind (fun self2 =>
                installObj self2 obj)
          else .error ("duplicate name " ++ obj.name)
        | none => installObj (RObj.mk sn sk (some l) sext) obj
termination_by self obj => sizeOf self + sizeOf obj
decreasing_by
  have hm : prev ∈ l := List.mem_of_find?_eq_some h
  have hsz : sizeOf prev < sizeOf l := List.sizeOf_lt_of_mem hm
  cases prev with
  | mk pn pk pns pe =>
    simp only [RObj.nested] at h2
    subst h2
    simp only [RObj.mk.sizeOf_spec, Option.some.sizeOf_spec, List.cons.sizeOf_spec] at *
    omega

/-- The JSON dialect, abstracted to the key presences the classifiers
consult (a present key holds a truthy object value). -/
structure JBody where
  hasFields : Bool
  hasValues : Bool
  hasId : Bool
  hasOneof : Bool
  hasMethods : Bool
  hasRequestType : Bool
deriving DecidableEq, Repr

/-- Modelled from the spec: `Enum.testJSON` — an Enum has `values`. -/
def testJSONEnum (j : JBody) : Bool := j.hasValues

/-- Modelled from the spec: `Type.testJSON` — a Type has `fields`. -/
def testJSONType (j : JBody) : Bool := j.hasFields

/-- Modelled from the spec: `Service.testJSON` — a Service has `methods`. -/
def testJSONService (j : JBody) : Bool := j.hasMethods

/-- `Field.testJSON` (part_000 lines 178-180): `json && json.id !== undefined`. -/
def testJSONField (j : JBody) : Bool := j.hasId

/-- `Namespace.testJSON` (part_001 lines 69-78). -/
def testJSONNamespace (j : JBody) : Bool :=
  !j.hasFields && !j.hasValues && !j.hasId && !j.hasOneof && !j.hasMethods &&
    !j.hasRequestType

/-- The classifier loop over `nestedTypes = [Enum, Type, Service, Field,
Namespace]` in order: the first kind whose `testJSON` matches. -/
def classify (j : JBody) : Option RKind :=
  if testJSONEnum j then some RKind.enumK
  else if testJSONType j then some RKind.typeK
  else if testJSONService j then some RKind.serviceK
  else if testJSONField j then some RKind.fieldK
  else if testJSONNamespace j then some RKind.nsK
  else none

/-- Modelled from the spec: the `fromJSON` constructor of the classified kind.
The claims settled here depend only on the child's name and kind; the child
starts with no nested map and no `extend`. -/
def fromJSONModel (k : RKind) (name : String) (_j : JBody) : RObj :=
  RObj.mk name k none none

/-- `addJSON(json)` (part_001 lines 96-110).  The `throw` in the source sits
OUTSIDE the inner classifier loop and therefore runs unconditionally at the
end of the first iteration of the outer loop — after a matching classifier has
already constructed and added the child.  Later entries are never reached; the
mutation performed before the throw is discarded with the error. -/
def addJSON (ns : RObj) (json : List (String × JBody)) : Except String RObj :=
  match json with
  | [] => .ok ns
  | (key, body) :: _rest =>
    match classify body with
    | some k =>
      match addObj ns (fromJSONModel k key body) with
      | .error e => .error e
      | .ok _ => .error ("json." ++ key)
    | none => .error ("json." ++ key)

/-- `Namespace.prototype.lookup(path, parentAlreadyChecked)` (part_001 lines
244-263).  `cur` is `this` and `ancs` its ancestor chain (parent first):
`this.parent === null` is `ancs = []`, and `this.root` is the last element of
`cur :: ancs`.  An absolute path (leading empty segment) restarts at the root;
a matching namespace-like child is descended into with
`parentAlreadyChecked = true`; otherwise the whole path is retried at the
parent. -/
def nsLookup : RObj → List RObj → List String → Bool → Option RObj
  | _, _, [], _ => none
  | cur, ancs, p0 :: prest, pc =>
    if p0 = "" then
      nsLookup ((cur :: ancs).getLast (List.cons_ne_nil cur ancs)) [] prest false
    else
      let climb : Option RObj :=
        match ancs with
        | [] => none
        | parent :: rest => if pc then none else nsLookup parent rest (p0 :: prest) false
      match getNested cur.nested p0 with
      | some f =>
        if prest.isEmpty then some f
        else if f.hasLookup then
          match nsLookup f (cur :: ancs) prest true with
          | some r => some r
          | none => climb
        else climb
      | none => climb
termination_by cur ancs path pc => (path.length, ancs.length)

/-- The reflected field record: stored properties and the derived flags. -/
structure FieldR where
  name : String
  rule : Option String
  type : String
  id : Nat
  extend : Option String
  required : Bool
  optional : Bool
  repeated : Bool
  map : Bool
deriving DecidableEq, Repr

/-- `.toLowerCase()` on the (ASCII) rule strings: per-character lowercasing. -/
def toLowerStr (s : String) : String := String.mk (s.data.map Char.toLower)

/-- The `Field` constructor (part_000 lines 24-132): `none` models
`undefined`.  The id must be present (a non-negative integer, enforced by the
`Nat` payload), the type a string; a present rule is lowercased and must be
one of required, optional, repeated; the `required`, `optional`, `repeated`
flags are derived from the (lowercased) rule, and the stored `rule` drops
`optional` and absence. -/
def mkField (name : String) (id : Option Nat) (type : Option String)
    (rule : Option String) (extend : Option String) : Except String FieldR :=
  match id with
  | none => .error "id: a non-negative integer expected"
  | some idv =>
    match type with
    | none => .error "type: a string expected"
    | some ty =>
      match rule with
      | some r0 =>
        let r := toLowerStr r0
        if r == "required" || r == "optional" || r == "repeated" then
          .ok { name := name, rule := if r != "optional" then some r else none,
                type := ty, id := idv, extend := extend,
                required := r == "required", optional := !(r == "required"),
                repeated := r == "repeated", map := false }
        else .error "rule: a valid rule string expected"
      | none =>
        .ok { name := name, rule := none, type := ty, id := idv, extend := extend,
              required := false, optional := true, repeated := false, map := false }

/-- The flat JSON shape of a field body: the dialect's `rule` key, and the
(nonexistent in the dialect) `role` key that `Field.fromJSON` actually reads. -/
structure FieldJson where
  id : Option Nat
  type : Option String
  rule : Option String
  role : Option String
  extend : Option String
deriving DecidableEq, Repr

/-- `Field.fromJSON(name, json)` (part_000 lines 189-191):
`new Field(name, json.id, json.type, json.role, json.extend, json.options)` —
note that it passes `json.role`, not `json.rule`. -/
def fieldFromJSON (name : String) (json : FieldJson) : Except String FieldR :=
  mkField name json.id json.type json.role json.extend

/-- Concrete objects for the reflection claims. -/
def enumA : RObj := RObj.mk "A" RKind.enumK none none

def enumB : RObj := RObj.mk "B" RKind.enumK none none

def nsN : RObj := RObj.mk "n" RKind.nsK (some [enumA, enumB]) none

def parentP : RObj := RObj.mk "P" RKind.nsK (some [nsN]) none

def typeN : RObj := RObj.mk "n" RKind.typeK none none

def nsM2 : RObj := RObj.mk "M" RKind.nsK (some [enumA, enumB]) none

def nsM1 : RObj := RObj.mk "M" RKind.nsK (some [enumA]) none

/-- A JSON body carrying `values`: classified as an Enum. -/
def enumBody : JBody := ⟨false, true, false, false, false, false⟩

def nsRootEmpty : RObj := RObj.mk "root" RKind.nsK none none

/-- Lookup example: `N` contains an Enum named `A`; `N`'s parent `R` also
contains a namespace `A` holding `B`. -/
def nsN10 : RObj := RObj.mk "N" RKind.nsK (some [enumA]) none

def nsA10 : RObj := RObj.mk "A" RKind.nsK (some [enumB]) none

def root10 : RObj := RObj.mk "R" RKind.nsK (some [nsN10, nsA10]) none

/-! ### Bit-arithmetic bridges -/

theorem and255 (v : Nat) : v &&& 255 = v % 256 := by
  have h := Nat.and_pow_two_sub_one_eq_mod v 8
  norm_num at h
  exact h

theorem and127 (v : Nat) : v &&& 127 = v % 128 := by
  have h := Nat.and_pow_two_sub_one_eq_mod v 7
  norm_num at h
  exact h

theorem and63 (v : Nat) : v &&& 63 = v % 64 := by
  have h := Nat.and_pow_two_sub_one_eq_mod v 6
  norm_num at h
  exact h

theorem and31 (v : Nat) : v &&& 31 = v % 32 := by
  have h := Nat.and_pow_two_sub_one_eq_mod v 5
  norm_num at h
  exact h

theorem and15 (v : Nat) : v &&& 15 = v % 16 := by
  have h := Nat.and_pow_two_sub_one_eq_mod v 4
  norm_num at h
  exact h

theorem and7 (v : Nat) : v &&& 7 = v % 8 := by
  have h := Nat.and_pow_two_sub_one_eq_mod v 3
  norm_num at h
  exact h

theorem and1023 (v : Nat) : v &&& 1023 = v % 1024 := by
  have h := Nat.and_pow_two_sub_one_eq_mod v 10
  norm_num at h
  exact h

theorem lor_eq_add (k m b : Nat) (hb : b < 2 ^ k) : b ||| 2 ^ k * m = 2 ^ k * m + b := by
  rw [Nat.lor_comm]
  exact (Nat.mul_add_lt_is_or hb m).symm

theorem or128_eq {a : Nat} (h : a < 128) : a ||| 128 = 128 + a := by
  have h2 := lor_eq_add 7 1 a (by omega)
  norm_num at h2
  exact h2

theorem or192_eq {a : Nat} (h : a < 64) : a ||| 192 = 192 + a := by
  have h2 := lor_eq_add 6 3 a (by omega)
  norm_num at h2
  exact h2

theorem or224_eq {a : Nat} (h : a < 32) : a ||| 224 = 224 + a := by
  have h2 := lor_eq_add 5 7 a (by omega)
  norm_num at h2
  exact h2

theorem or240_eq {a : Nat} (h : a < 16) : a ||| 240 = 240 + a := by
  have h2 := lor_eq_add 4 15 a (by omega)
  norm_num at h2
  exact h2

/-! ### Varint facts -/

theorem varintBytes_ne_nil (v : Nat) : varintBytes v ≠ [] := by
  rw [varintBytes]
  split <;> simp

theorem varintBytes_lt_256 (v : Nat) : ∀ b ∈ varintBytes v, b < 256 := by
  induction v using Nat.strong_induction_on with
  | _ v ih =>
    rw [varintBytes]
    split
    · intro b hb
      rcases List.mem_cons.mp hb with h | h
      · subst h
        have h1 : v &&& 127 < 128 := by rw [and127]; omega
        rw [or128_eq h1]
        omega
      · exact ih (v >>> 7) (by simp only [Nat.shiftRight_eq_div_pow]; omega) b h
    · intro b hb
      simp only [List.mem_singleton] at hb
      omega

theorem varintDecode_varintBytes (v : Nat) : varintDecode (varintBytes v) = v := by
  induction v using Nat.strong_induction_on with
  | _ v ih =>
    rw [varintBytes]
    split
    · rw [varintDecode, ih (v >>> 7) (by simp only [Nat.shiftRight_eq_div_pow]; omega)]
      have h1 : v &&& 127 < 128 := by rw [and127]; omega
      rw [or128_eq h1, and127, Nat.shiftRight_eq_div_pow]
      norm_num
      omega
    · rw [varintDecode, varintDecode]
      omega

theorem varintBytes_dropLast_ge (v : Nat) : ∀ b ∈ (varintBytes v).dropLast, 128 ≤ b := by
  induction v using Nat.strong_induction_on with
  | _ v ih =>
    rw [varintBytes]
    split
    · intro b hb
      rw [List.dropLast_cons_of_ne_nil (varintBytes_ne_nil _)] at hb
      rcases List.mem_cons.mp hb with h | h
      · subst h
        have h1 : v &&& 127 < 128 := by rw [and127]; omega
        rw [or128_eq h1]
        omega
      · exact ih (v >>> 7) (by simp only [Nat.shiftRight_eq_div_pow]; omega) b h
    · intro b hb
      simp at hb

theorem varintBytes_getLast_lt (v : Nat) :
    ∀ b, (varintBytes v).getLast? = some b → b < 128 := by
  induction v using Nat.strong_induction_on with
  | _ v ih =>
    rw [varintBytes]
    split
    · intro b hb
      obtain ⟨y, l2, hyl⟩ := List.exists_cons_of_ne_nil (varintBytes_ne_nil (v >>> 7))
      rw [hyl, List.getLast?_cons_cons, ← hyl] at hb
      exact ih (v >>> 7) (by simp only [Nat.shiftRight_eq_div_pow]; omega) b hb
    · intro b hb
      simp only [List.getLast?_singleton, Option.some.injEq] at hb
      omega

/-- A value below `2 ^ (7 * k + 7)` needs at most `k + 1` varint bytes. -/
theorem varintBytes_length_le (k : Nat) : ∀ v < 2 ^ (7 * k + 7), (varintBytes v).length ≤ k + 1 := by
  induction k with
  | zero =>
    intro v hv
    rw [varintBytes]
    split
    · exfalso
      norm_num at hv
      omega
    · simp
  | succ k ihk =>
    intro v hv
    rw [varintBytes]
    split
    · simp only [List.length_cons]
      have h := ihk (v >>> 7) (by
        simp only [Nat.shiftRight_eq_div_pow]
        have : 2 ^ (7 * (k + 1) + 7) = 2 ^ (7 * k + 7) * 2 ^ 7 := by ring
        rw [this] at hv
        omega)
      omega
    · simp

/-! ### Writer-state machinery: the byte stream appended by each primitive -/

theorem inv_mk_some (bufs : List (List Nat)) (b : List Nat) (pos len : Nat)
    (h1 : b.length = len) (h2 : pos ≤ len) (h3 : 0 < len) :
    WState.inv ⟨bufs, some b, pos, len⟩ = true := by
  simp only [WState.inv, Bool.and_eq_true, decide_eq_true_eq]
  exact ⟨⟨h1, h2⟩, h3⟩

theorem inv_of_some {s : WState} (h : s.inv = true) {b : List Nat} (hb : s.buf = some b) :
    b.length = s.len ∧ s.pos ≤ s.len ∧ 0 < s.len := by
  obtain ⟨bufs, buf, pos, len⟩ := s
  simp only at hb
  subst hb
  simp only [WState.inv, Bool.and_eq_true, decide_eq_true_eq] at h
  exact ⟨h.1.1, h.1.2, h.2⟩

theorem inv_of_none {s : WState} (h : s.inv = true) (hb : s.buf = none) :
    s.pos = 0 ∧ s.len = 0 ∧ s.bufs = [] := by
  obtain ⟨bufs, buf, pos, len⟩ := s
  simp only at hb
  subst hb
  simp only [WState.inv, Bool.and_eq_true, decide_eq_true_eq] at h
  exact ⟨h.1.1, h.1.2, h.2⟩

theorem take_set_succ (l : List Nat) (i v : Nat) (h : i < l.length) :
    (l.set i v).take (i + 1) = l.take i ++ [v] := by
  rw [List.take_succ, List.set_take, List.set_eq_of_length_le (by simp),
    List.getElem?_set_self (by simpa using h)]
  simp

/-- `expand` preserves the invariant, the fork stack and the emitted bytes, and
leaves room: the new chunk is fresh and at least `BUFFER_SIZE` long. -/
theorem expand_spec (w : Writer) (n : Nat) (h : w.Inv) :
    (w.expand n).Inv ∧ (w.expand n).stack = w.stack ∧ (w.expand n).emitted = w.emitted ∧
    (w.expand n).pos = 0 ∧ (w.expand n).len = max n Writer.BUFFER_SIZE ∧
    (w.expand n).buf = some (List.replicate (max n Writer.BUFFER_SIZE) 0) := by
  obtain ⟨hs, hstk⟩ := h
  have hpos : (w.expand n).pos = 0 := rfl
  have hlen : (w.expand n).len = max n Writer.BUFFER_SIZE := rfl
  have hbuf : (w.expand n).buf = some (List.replicate (max n Writer.BUFFER_SIZE) 0) := rfl
  have hstk2 : (w.expand n).stack = w.stack := rfl
  have hinv : (w.expand n).Inv := by
    constructor
    · show WState.inv ⟨_, some (List.replicate (max n Writer.BUFFER_SIZE) 0), 0,
        max n Writer.BUFFER_SIZE⟩ = true
      exact inv_mk_some _ _ _ _ (by simp) (by omega)
        (by simp only [Writer.BUFFER_SIZE]; omega)
    · rw [hstk2]
      exact hstk
  refine ⟨hinv, hstk2, ?_, hpos, hlen, hbuf⟩
  simp only [Writer.emitted, Writer.expand, hbuf]
  cases hb : w.buf with
  | none =>
    have h0 := inv_of_none hs hb
    simp only [Writer.state] at h0
    simp [hb, h0.1]
  | some b =>
    have h0 := inv_of_some hs hb
    simp only [Writer.state] at h0
    by_cases hp : w.pos = 0
    · simp [hb, hp]
    · simp [hb, hp]

/-- `buf[pos++] = x` under the invariant with room for one byte: appends `x % 256`. -/
theorem putRaw_spec (w : Writer) (x : Nat) (h : w.Inv) (hroom : w.pos < w.len) :
    (w.putRaw x).Inv ∧ (w.putRaw x).stack = w.stack ∧
    (w.putRaw x).emitted = w.emitted ++ [x % 256] ∧
    (w.putRaw x).pos = w.pos + 1 ∧ (w.putRaw x).len = w.len ∧
    (w.putRaw x).bufs = w.bufs := by
  obtain ⟨hs, hstk⟩ := h
  cases hb : w.buf with
  | none =>
    have h0 := inv_of_none hs hb
    simp only [Writer.state] at h0
    omega
  | some b =>
    have h0 := inv_of_some hs hb
    simp only [Writer.state] at h0
    have hbuf : (w.putRaw x).buf = some (b.set w.pos (x % 256)) := by
      simp [Writer.putRaw, hb]
    refine ⟨⟨?_, by simpa [Writer.putRaw] using hstk⟩, rfl, ?_, rfl, rfl, rfl⟩
    · show WState.inv ⟨(w.putRaw x).bufs, (w.putRaw x).buf, w.pos + 1, w.len⟩ = true
      rw [hbuf]
      exact inv_mk_some _ _ _ _ (by simp; omega) (by omega) (by omega)
    · simp only [Writer.emitted, Writer.putRaw, hb, Option.map_some', Option.getD_some]
      rw [take_set_succ b w.pos (x % 256) (by omega), List.append_assoc]

/-- Repeated raw stores with room append the bytes, reduced modulo 256. -/
theorem putRawList_spec (bs : List Nat) (w : Writer) (h : w.Inv)
    (hroom : w.pos + bs.length ≤ w.len) :
    (w.putRawList bs).Inv ∧ (w.putRawList bs).stack = w.stack ∧
    (w.putRawList bs).emitted = w.emitted ++ bs.map (fun x => x % 256) ∧
    (w.putRawList bs).pos = w.pos + bs.length ∧ (w.putRawList bs).len = w.len := by
  induction bs generalizing w with
  | nil => simp [Writer.putRawList, h]
  | cons x rest ih =>
    obtain ⟨i1, s1, e1, p1, l1, _⟩ := putRaw_spec w x h (by simp at hroom; omega)
    obtain ⟨i2, s2, e2, p2, l2⟩ := ih (w.putRaw x) i1 (by simp at hroom ⊢; omega)
    simp only [Writer.putRawList, List.foldl_cons, List.length_cons] at *
    refine ⟨i2, by rw [s2, s1], ?_, by omega, by omega⟩
    rw [e2, e1]
    simp

/-! ### The byte stream appended by each primitive write -/

theorem ensureGt_spec (w : Writer) (k : Nat) (h : w.Inv) :
    (if w.pos + k > w.len then w.expand k else w).Inv ∧
    (if w.pos + k > w.len then w.expand k else w).stack = w.stack ∧
    (if w.pos + k > w.len then w.expand k else w).emitted = w.emitted ∧
    (if w.pos + k > w.len then w.expand k else w).pos + k ≤
      (if w.pos + k > w.len then w.expand k else w).len := by
  by_cases hc : w.pos + k > w.len
  · rw [if_pos hc]
    obtain ⟨i, s, e, p, l, _⟩ := expand_spec w k h
    refine ⟨i, s, e, ?_⟩
    rw [p, l]
    simp only [Writer.BUFFER_SIZE]
    omega
  · rw [if_neg hc]
    exact ⟨h, rfl, rfl, by omega⟩

theorem ensureGe_spec (w : Writer) (h : w.Inv) :
    (if w.pos ≥ w.len then w.expand 1 else w).Inv ∧
    (if w.pos ≥ w.len then w.expand 1 else w).stack = w.stack ∧
    (if w.pos ≥ w.len then w.expand 1 else w).emitted = w.emitted ∧
    (if w.pos ≥ w.len then w.expand 1 else w).pos <
      (if w.pos ≥ w.len then w.expand 1 else w).len := by
  by_cases hc : w.pos ≥ w.len
  · rw [if_pos hc]
    obtain ⟨i, s, e, p, l, _⟩ := expand_spec w 1 h
    refine ⟨i, s, e, ?_⟩
    rw [p, l]
    simp only [Writer.BUFFER_SIZE]
    omega
  · rw [if_neg hc]
    exact ⟨h, rfl, rfl, by omega⟩

theorem tag_spec (w : Writer) (id wt : Nat) (h : w.Inv) :
    (w.tag id wt).Inv ∧ (w.tag id wt).stack = w.stack ∧
    (w.tag id wt).emitted = w.emitted ++ [(id <<< 3 ||| (wt &&& 7)) &&& 255] := by
  have hdef : w.tag id wt = (if w.pos + 1 > w.len then w.expand 1 else w).putRaw
      ((id <<< 3 ||| (wt &&& 7)) &&& 255) := rfl
  rw [hdef]
  obtain ⟨i1, s1, e1, r1⟩ := ensureGt_spec w 1 h
  obtain ⟨i2, s2, e2, _, _, _⟩ :=
    putRaw_spec (if w.pos + 1 > w.len then w.expand 1 else w)
      ((id <<< 3 ||| (wt &&& 7)) &&& 255) i1 (by omega)
  have hm : ((id <<< 3 ||| (wt &&& 7)) &&& 255) % 256 = (id <<< 3 ||| (wt &&& 7)) &&& 255 := by
    simp only [and255]
    omega
  rw [hm] at e2
  exact ⟨i2, by rw [s2, s1], by rw [e2, e1]⟩

theorem u32Fast_spec (v : Nat) : ∀ w : Writer, w.Inv →
    w.pos + (varintBytes v).length ≤ w.len →
    (w.u32Fast v).Inv ∧ (w.u32Fast v).stack = w.stack ∧
    (w.u32Fast v).emitted = w.emitted ++ varintBytes v ∧
    (w.u32Fast v).pos = w.pos + (varintBytes v).length ∧
    (w.u32Fast v).len = w.len := by
  induction v using Nat.strong_induction_on with
  | _ v ih =>
    intro w h hroom
    rw [Writer.u32Fast]
    by_cases hv : v > 127
    · rw [if_pos hv]
      have hvb : varintBytes v = ((v &&& 127) ||| 128) :: varintBytes (v >>> 7) := by
        rw [varintBytes, if_pos hv]
      have hblt : (v &&& 127) ||| 128 < 256 := by
        rw [or128_eq (by rw [and127]; omega), and127]
        omega
      rw [hvb, List.length_cons] at hroom
      obtain ⟨i1, s1, e1, p1, l1, _⟩ := putRaw_spec w ((v &&& 127) ||| 128) h (by omega)
      obtain ⟨i2, s2, e2, p2, l2⟩ :=
        ih (v >>> 7) (by simp only [Nat.shiftRight_eq_div_pow]; omega)
          (w.putRaw ((v &&& 127) ||| 128)) i1 (by omega)
      rw [Nat.mod_eq_of_lt hblt] at e1
      refine ⟨i2, by rw [s2, s1], ?_, ?_, by omega⟩
      · rw [e2, e1, hvb]
        simp
      · rw [hvb, p2, p1, List.length_cons]
        omega
    · rw [if_neg hv]
      have hvb : varintBytes v = [v] := by
        rw [varintBytes, if_neg hv]
      rw [hvb, List.length_singleton] at hroom
      obtain ⟨i1, s1, e1, p1, l1, _⟩ := putRaw_spec w v h (by omega)
      rw [Nat.mod_eq_of_lt (by omega : v < 256)] at e1
      exact ⟨i1, s1, by rw [e1, hvb], by rw [hvb, p1, List.length_singleton], l1⟩

theorem u32Slow_spec (v : Nat) : ∀ w : Writer, w.Inv →
    (w.u32Slow v).Inv ∧ (w.u32Slow v).stack = w.stack ∧
    (w.u32Slow v).emitted = w.emitted ++ varintBytes v := by
  induction v using Nat.strong_induction_on with
  | _ v ih =>
    intro w h
    rw [Writer.u32Slow]
    by_cases hv : v > 127
    · rw [if_pos hv]
      have hvb : varintBytes v = ((v &&& 127) ||| 128) :: varintBytes (v >>> 7) := by
        rw [varintBytes, if_pos hv]
      have hblt : (v &&& 127) ||| 128 < 256 := by
        rw [or128_eq (by rw [and127]; omega), and127]
        omega
      obtain ⟨i1, s1, e1, r1⟩ := ensureGe_spec w h
      obtain ⟨i2, s2, e2, _, _, _⟩ :=
        putRaw_spec (if w.pos ≥ w.len then w.expand 1 else w)
          ((v &&& 127) ||| 128) i1 r1
      obtain ⟨i3, s3, e3⟩ :=
        ih (v >>> 7) (by simp only [Nat.shiftRight_eq_div_pow]; omega) _ i2
      rw [Nat.mod_eq_of_lt hblt] at e2
      refine ⟨i3, by rw [s3, s2, s1], ?_⟩
      rw [e3, e2, e1, hvb]
      simp
    · rw [if_neg hv]
      have hvb : varintBytes v = [v] := by
        rw [varintBytes, if_neg hv]
      obtain ⟨i1, s1, e1, r1⟩ := ensureGe_spec w h
      obtain ⟨i2, s2, e2, _, _, _⟩ :=
        putRaw_spec (if w.pos ≥ w.len then w.expand 1 else w) v i1 r1
      rw [Nat.mod_eq_of_lt (by omega : v < 256)] at e2
      refine ⟨i2, by rw [s2, s1], ?_⟩
      rw [e2, e1, hvb]

theorem uint32_spec (w : Writer) (v : Nat) (h : w.Inv) :
    (w.uint32 v).Inv ∧ (w.uint32 v).stack = w.stack ∧
    (w.uint32 v).emitted = w.emitted ++ varintBytes (v % 2 ^ 32) := by
  have hdef : w.uint32 v =
      if w.pos + 4 < w.len then w.u32Fast (v % 2 ^ 32) else w.u32Slow (v % 2 ^ 32) := rfl
  rw [hdef]
  by_cases hc : w.pos + 4 < w.len
  · rw [if_pos hc]
    have hlen : (varintBytes (v % 2 ^ 32)).length ≤ 5 := by
      have hm : v % 2 ^ 32 < 2 ^ 32 := Nat.mod_lt _ (by norm_num)
      have := varintBytes_length_le 4 (v % 2 ^ 32) (by norm_num at hm ⊢; omega)
      omega
    obtain ⟨i, s, e, _, _⟩ := u32Fast_spec (v % 2 ^ 32) w h (by omega)
    exact ⟨i, s, e⟩
  · rw [if_neg hc]
    exact u32Slow_spec (v % 2 ^ 32) w h

theorem int32_spec (w : Writer) (v : Nat) (h : w.Inv) :
    (w.int32 v).Inv ∧ (w.int32 v).stack = w.stack ∧
    (w.int32 v).emitted = w.emitted ++ varintBytes (v % 2 ^ 32) :=
  uint32_spec w v h

theorem bool_spec (w : Writer) (v : Bool) (h : w.Inv) :
    (w.bool v).Inv ∧ (w.bool v).stack = w.stack ∧
    (w.bool v).emitted = w.emitted ++ [if v then 1 else 0] := by
  have hdef : w.bool v =
      (if w.pos ≥ w.len then w.expand 1 else w).putRaw (if v then 1 else 0) := rfl
  rw [hdef]
  obtain ⟨i1, s1, e1, r1⟩ := ensureGe_spec w h
  obtain ⟨i2, s2, e2, _, _, _⟩ :=
    putRaw_spec (if w.pos ≥ w.len then w.expand 1 else w) (if v then 1 else 0) i1 r1
  have hm : ((if v then 1 else 0) : Nat) % 256 = if v then 1 else 0 := by
    cases v <;> simp
  rw [hm] at e2
  exact ⟨i2, by rw [s2, s1], by rw [e2, e1]⟩

theorem fixed32_spec (w : Writer) (v : Nat) (h : w.Inv) :
    (w.fixed32 v).Inv ∧ (w.fixed32 v).stack = w.stack ∧
    (w.fixed32 v).emitted = w.emitted ++ [(v % 2 ^ 32) &&& 255, ((v % 2 ^ 32) >>> 8) &&& 255,
      ((v % 2 ^ 32) >>> 16) &&& 255, (v % 2 ^ 32) >>> 24] := by
  have hdef : w.fixed32 v =
      (((((if w.pos + 4 > w.len then w.expand 4 else w).putRaw ((v % 2 ^ 32) &&& 255)).putRaw
        (((v % 2 ^ 32) >>> 8) &&& 255)).putRaw
        (((v % 2 ^ 32) >>> 16) &&& 255)).putRaw ((v % 2 ^ 32) >>> 24)) := rfl
  rw [hdef]
  obtain ⟨i1, s1, e1, r1⟩ := ensureGt_spec w 4 h
  obtain ⟨i2, s2, e2, p2, l2, _⟩ :=
    putRaw_spec (if w.pos + 4 > w.len then w.expand 4 else w) ((v % 2 ^ 32) &&& 255) i1
      (by omega)
  obtain ⟨i3, s3, e3, p3, l3, _⟩ := putRaw_spec _ (((v % 2 ^ 32) >>> 8) &&& 255) i2 (by omega)
  obtain ⟨i4, s4, e4, p4, l4, _⟩ := putRaw_spec _ (((v % 2 ^ 32) >>> 16) &&& 255) i3 (by omega)
  obtain ⟨i5, s5, e5, _, _, _⟩ := putRaw_spec _ ((v % 2 ^ 32) >>> 24) i4 (by omega)
  have hm1 : ((v % 2 ^ 32) &&& 255) % 256 = (v % 2 ^ 32) &&& 255 := by
    simp only [and255]; omega
  have hm2 : (((v % 2 ^ 32) >>> 8) &&& 255) % 256 = ((v % 2 ^ 32) >>> 8) &&& 255 := by
    simp only [and255]; omega
  have hm3 : (((v % 2 ^ 32) >>> 16) &&& 255) % 256 = ((v % 2 ^ 32) >>> 16) &&& 255 := by
    simp only [and255]; omega
  have hm4 : ((v % 2 ^ 32) >>> 24) % 256 = (v % 2 ^ 32) >>> 24 := by
    have h32 : v % 2 ^ 32 < 2 ^ 32 := Nat.mod_lt _ (by norm_num)
    rw [Nat.shiftRight_eq_div_pow]
    norm_num at h32 ⊢
    omega
  rw [hm4] at e5
  rw [hm3] at e4
  rw [hm2] at e3
  rw [hm1] at e2
  refine ⟨i5, by rw [s5, s4, s3, s2, s1], ?_⟩
  rw [e5, e4, e3, e2, e1]
  simp

theorem setRange_take (vs : List Nat) : ∀ (b : List Nat) (p : Nat), p + vs.length ≤ b.length →
    (setRange b p vs).length = b.length ∧
    (setRange b p vs).take (p + vs.length) = b.take p ++ vs.map (fun x => x % 256) := by
  induction vs with
  | nil =>
    intro b p hroom
    simp [setRange]
  | cons x xs ih =>
    intro b p hroom
    rw [setRange]
    simp only [List.length_cons] at hroom
    obtain ⟨hl, ht⟩ := ih (b.set p (x % 256)) (p + 1) (by simp; omega)
    refine ⟨by rw [hl]; simp, ?_⟩
    have hidx : p + (x :: xs).length = (p + 1) + xs.length := by simp; omega
    rw [hidx, ht, take_set_succ b p (x % 256) (by omega)]
    simp

theorem bytes_spec (w : Writer) (value : List Nat) (h : w.Inv) :
    (w.bytes value).Inv ∧ (w.bytes value).stack = w.stack ∧
    (w.bytes value).emitted = w.emitted ++
      (if value.length ≠ 0 then varintBytes (value.length % 2 ^ 32) ++
        value.map (fun x => x % 256) else [0]) := by
  by_cases hv : value.length ≠ 0
  · have hdef : w.bytes value =
        { (if (w.uint32 value.length).pos + value.length > (w.uint32 value.length).len then
             (w.uint32 value.length).expand value.length else (w.uint32 value.length)) with
          buf := (if (w.uint32 value.length).pos + value.length > (w.uint32 value.length).len then
             (w.uint32 value.length).expand value.length else (w.uint32 value.length)).buf.map
               (fun l => setRange l (if (w.uint32 value.length).pos + value.length >
                 (w.uint32 value.length).len then
                 (w.uint32 value.length).expand value.length else
                 (w.uint32 value.length)).pos value),
          pos := (if (w.uint32 value.length).pos + value.length > (w.uint32 value.length).len then
             (w.uint32 value.length).expand value.length else (w.uint32 value.length)).pos +
               value.length } := by
      rw [Writer.bytes, if_pos hv]
    rw [hdef, if_pos hv]
    obtain ⟨i1, s1, e1⟩ := uint32_spec w value.length h
    obtain ⟨i2, s2, e2, r2⟩ := ensureGt_spec (w.uint32 value.length) value.length i1
    set w2 := if (w.uint32 value.length).pos + value.length > (w.uint32 value.length).len then
      (w.uint32 value.length).expand value.length else (w.uint32 value.length) with hw2
    obtain ⟨is2, hstk2⟩ := i2
    cases hb : w2.buf with
    | none =>
      exfalso
      have h0 := inv_of_none is2 hb
      simp only [Writer.state] at h0
      omega
    | some b =>
      have h0 := inv_of_some is2 hb
      simp only [Writer.state] at h0
      obtain ⟨hl, ht⟩ := setRange_take value b w2.pos (by omega)
      have he2 : w2.emitted = w.emitted ++ varintBytes (value.length % 2 ^ 32) := by
        rw [e2, e1]
      simp only [Writer.emitted, hb, Option.getD_some] at he2
      refine ⟨⟨?_, ?_⟩, ?_, ?_⟩
      · simp only [Writer.state, Option.map_some']
        exact inv_mk_some _ _ _ _ (by rw [hl]; omega) (by omega) (by omega)
      · simpa using hstk2
      · simpa using s2.trans s1
      · simp only [Writer.emitted, Option.map_some', Option.getD_some]
        rw [ht, ← List.append_assoc, he2, List.append_assoc]
  · have hdef : w.bytes value =
        (if w.pos ≥ w.len then w.expand 1 else w).putRaw 0 := by
      rw [Writer.bytes, if_neg hv]
    rw [hdef, if_neg hv]
    obtain ⟨i1, s1, e1, r1⟩ := ensureGe_spec w h
    obtain ⟨i2, s2, e2, _, _, _⟩ :=
      putRaw_spec (if w.pos ≥ w.len then w.expand 1 else w) 0 i1 r1
    exact ⟨i2, by rw [s2, s1], by rw [e2, e1]⟩

theorem utf8Len_eq (l : List Nat) : utf8Len l = (utf8Enc l).length := by
  induction l using utf8Len.induct <;>
    (rw [utf8Len.eq_def, utf8Enc.eq_def]
     first
       | rfl
       | (simp_all [enc3]
          first
            | omega
            | (split_ifs <;>
                first
                  | omega
                  | (simp_all
                     try omega))))

theorem utf8Len_cons_pos (c : Nat) (rest : List Nat) : 1 ≤ utf8Len (c :: rest) := by
  cases rest with
  | nil =>
    rw [utf8Len]
    split_ifs <;> omega
  | cons c2 r2 =>
    rw [utf8Len]
    split_ifs <;> omega

theorem map_mod256 (bs : List Nat) (h : ∀ b ∈ bs, b < 256) :
    bs.map (fun x => x % 256) = bs := by
  induction bs with
  | nil => rfl
  | cons x xs ih =>
    simp only [List.map_cons]
    rw [Nat.mod_eq_of_lt (h x (by simp)), ih (fun b hb => h b (by simp [hb]))]

theorem string_spec (w : Writer) (s : List Nat) (h : w.Inv) :
    (w.string s).Inv ∧ (w.string s).stack = w.stack ∧
    (w.string s).emitted = w.emitted ++
      (if s.length ≠ 0 then varintBytes (utf8Len s % 2 ^ 32) ++
        (utf8Enc s).map (fun x => x % 256) else [0]) := by
  by_cases hv : s.length ≠ 0
  · have hdef : w.string s =
        (if (w.uint32 (utf8Len s)).pos + utf8Len s > (w.uint32 (utf8Len s)).len then
           (w.uint32 (utf8Len s)).expand (utf8Len s) else
           (w.uint32 (utf8Len s))).putRawList (utf8Enc s) := by
      rw [Writer.string, if_pos hv]
    rw [hdef, if_pos hv]
    obtain ⟨i1, s1, e1⟩ := uint32_spec w (utf8Len s) h
    obtain ⟨i2, s2, e2, r2⟩ := ensureGt_spec (w.uint32 (utf8Len s)) (utf8Len s) i1
    obtain ⟨i3, s3, e3, _, _⟩ :=
      putRawList_spec (utf8Enc s)
        (if (w.uint32 (utf8Len s)).pos + utf8Len s > (w.uint32 (utf8Len s)).len then
           (w.uint32 (utf8Len s)).expand (utf8Len s) else (w.uint32 (utf8Len s)))
        i2 (by rw [← utf8Len_eq]; omega)
    refine ⟨i3, by rw [s3, s2, s1], ?_⟩
    rw [e3, e2, e1, List.append_assoc]
  · have hdef : w.string s =
        (if w.pos ≥ w.len then w.expand 1 else w).putRaw 0 := by
      rw [Writer.string, if_neg hv]
    rw [hdef, if_neg hv]
    obtain ⟨i1, s1, e1, r1⟩ := ensureGe_spec w h
    obtain ⟨i2, s2, e2, _, _, _⟩ :=
      putRaw_spec (if w.pos ≥ w.len then w.expand 1 else w) 0 i1 r1
    exact ⟨i2, by rw [s2, s1], by rw [e2, e1]⟩

/-! ### fork / reset / finish -/

theorem fork_spec (w : Writer) (h : w.Inv) :
    (w.fork).Inv ∧ (w.fork).stack = w.state :: w.stack ∧ (w.fork).emitted = [] := by
  refine ⟨⟨rfl, ?_⟩, rfl, rfl⟩
  intro st hst
  rcases List.mem_cons.mp hst with h1 | h1
  · rw [h1]
    exact h.1
  · exact h.2 st h1

theorem reset_spec (w : Writer) (h : w.Inv) : (w.reset).Inv := by
  obtain ⟨h1, h2⟩ := h
  cases hstk : w.stack with
  | nil =>
    have hdef : w.reset = { w with bufs := [], buf := none, pos := 0, len := 0 } := by
      simp only [Writer.reset, hstk]
    rw [hdef]
    exact ⟨rfl, by simp [hstk]⟩
  | cons st rest =>
    have hdef : w.reset = st.applyTo { w with stack := rest } := by
      simp only [Writer.reset, hstk]
    rw [hdef]
    constructor
    · show st.inv = true
      exact h2 st (by rw [hstk]; simp)
    · intro s hs
      exact h2 s (by rw [hstk]; simp only [WState.applyTo] at hs; simp [hs])

theorem finish_spec (w : Writer) (h : w.Inv) :
    (w.finish).1 = w.emitted ∧ (w.finish).2 = w.reset := by
  obtain ⟨h1, h2⟩ := h
  cases hb : w.buf with
  | none =>
    have h0 := inv_of_none h1 hb
    simp only [Writer.state] at h0
    have hdef : w.finish = ([], w.reset) := by
      simp only [Writer.finish, hb]
    rw [hdef]
    exact ⟨by simp [Writer.emitted, hb, h0.2.2], rfl⟩
  | some b =>
    have h0 := inv_of_some h1 hb
    simp only [Writer.state] at h0
    have hdef : w.finish =
        (w.bufs.flatten ++ (if w.pos < w.len then b.take w.pos else b), w.reset) := by
      simp only [Writer.finish, hb]
    rw [hdef]
    refine ⟨?_, rfl⟩
    by_cases hp : w.pos < w.len
    · simp [hp, Writer.emitted, hb]
    · have hpe : w.pos = b.length := by omega
      simp only [hp, if_false, Writer.emitted, hb, Option.getD_some]
      rw [hpe, List.take_length]

/-! ### Operation sequences -/

theorem wop_spec (op : WOp) (hop : op.prim = true) (w : Writer) (h : w.Inv) :
    (op.applyOp w).Inv ∧ (op.applyOp w).stack = w.stack ∧
    (op.applyOp w).emitted = w.emitted ++ op.opBytes := by
  cases op with
  | tagOp id wt => exact tag_spec w id wt h
  | uint32Op v => exact uint32_spec w v h
  | boolOp v => exact bool_spec w v h
  | fixed32Op v => exact fixed32_spec w v h
  | bytesOp v => exact bytes_spec w v h
  | stringOp s => exact string_spec w s h
  | forkOp => simp [WOp.prim] at hop
  | resetOp => simp [WOp.prim] at hop
  | finishOp => simp [WOp.prim] at hop

theorem applyOps_spec (ops : List WOp) : ∀ w : Writer, w.Inv →
    (∀ op ∈ ops, op.prim = true) →
    (applyOps ops w).Inv ∧ (applyOps ops w).stack = w.stack ∧
    (applyOps ops w).emitted = w.emitted ++ opsBytes ops := by
  induction ops with
  | nil =>
    intro w h _
    simp [applyOps, opsBytes, h]
  | cons op rest ih =>
    intro w h hprim
    obtain ⟨i1, s1, e1⟩ := wop_spec op (hprim op (by simp)) w h
    obtain ⟨i2, s2, e2⟩ := ih (op.applyOp w) i1 (fun o ho => hprim o (by simp [ho]))
    simp only [applyOps, List.foldl_cons] at *
    refine ⟨i2, by rw [s2, s1], ?_⟩
    rw [e2, e1]
    simp [opsBytes]

/-- Every modelled operation (including fork, reset and finish) preserves the
writer invariant. -/
theorem wop_inv (op : WOp) (w : Writer) (h : w.Inv) : (op.applyOp w).Inv := by
  cases op with
  | tagOp id wt => exact (tag_spec w id wt h).1
  | uint32Op v => exact (uint32_spec w v h).1
  | boolOp v => exact (bool_spec w v h).1
  | fixed32Op v => exact (fixed32_spec w v h).1
  | bytesOp v => exact (bytes_spec w v h).1
  | stringOp s => exact (string_spec w s h).1
  | forkOp => exact (fork_spec w h).1
  | resetOp => exact reset_spec w h
  | finishOp =>
    show (w.finish.2).Inv
    rw [(finish_spec w h).2]
    exact reset_spec w h

theorem applyOps_inv (ops : List WOp) : ∀ w : Writer, w.Inv → (applyOps ops w).Inv := by
  induction ops with
  | nil => intro w h; exact h
  | cons op rest ih =>
    intro w h
    exact ih (op.applyOp w) (wop_inv op w h)

theorem init_inv : Writer.Inv Writer.init := by
  refine ⟨rfl, ?_⟩
  intro s hs
  simp [Writer.init] at hs

theorem varintBytes_small {v : Nat} (h : v ≤ 127) : varintBytes v = [v] := by
  rw [varintBytes, if_neg (by omega)]

theorem varintBytes_mid {v : Nat} (h1 : 127 < v) (h2 : v < 16384) :
    varintBytes v = [(v &&& 127) ||| 128, v >>> 7] := by
  rw [varintBytes, if_pos h1, varintBytes,
    if_neg (by simp only [Nat.shiftRight_eq_div_pow]; omega)]

/-! ### Claims C1 - C3 -/

/-- C2: starting from the constructor state, after every sequence of the
modelled public operations (scalar writes, `fork`, `reset`, `finish`) the
invariants `pos ≤ len` and `buf = null ↔ len = 0` hold, and `finish` returns
exactly the concatenation of the sealed chunks in `bufs` followed by
`buf[0..pos]` as captured at the moment of the call. -/
theorem c2_invariants_and_finish (ops : List WOp) :
    (applyOps ops Writer.init).pos ≤ (applyOps ops Writer.init).len ∧
    ((applyOps ops Writer.init).buf = none ↔ (applyOps ops Writer.init).len = 0) ∧
    ((applyOps ops Writer.init).finish).1 =
      (applyOps ops Writer.init).bufs.flatten ++
        (((applyOps ops Writer.init).buf.getD []).take (applyOps ops Writer.init).pos) := by
  have hinv : (applyOps ops Writer.init).Inv := applyOps_inv ops Writer.init init_inv
  obtain ⟨h1, h2⟩ := hinv
  refine ⟨?_, ⟨?_, ?_⟩, (finish_spec _ ⟨h1, h2⟩).1⟩
  · cases hb : (applyOps ops Writer.init).buf with
    | none =>
      have h0 := inv_of_none h1 hb
      simp only [Writer.state] at h0
      omega
    | some b =>
      have h0 := inv_of_some h1 hb
      simp only [Writer.state] at h0
      omega
  · intro hb
    have h0 := inv_of_none h1 hb
    simp only [Writer.state] at h0
    omega
  · intro hlen
    cases hb : (applyOps ops Writer.init).buf with
    | none => rfl
    | some b =>
      have h0 := inv_of_some h1 hb
      simp only [Writer.state] at h0
      omega

/-- C1 (amended): after `fork(); writes; b = finish()`, the writer is already
back in its pre-fork state — `finish` performs the implicit `reset()` that pops
the fork snapshot — and `b` equals the bytes an independently-constructed
writer produces from the same writes.  (The subsequent `reset()` of the claim
is dropped: it pops a further snapshot or clears the writer, see the
counterexample.) -/
theorem c1_fork_finish_restores (w : Writer) (ops : List WOp) (hw : w.Inv)
    (hp : ∀ op ∈ ops, op.prim = true) :
    ((applyOps ops w.fork).finish).2 = w ∧
    ((applyOps ops w.fork).finish).1 = ((applyOps ops Writer.init).finish).1 := by
  obtain ⟨if1, sf1, ef1⟩ := fork_spec w hw
  obtain ⟨i1, s1, e1⟩ := applyOps_spec ops w.fork if1 hp
  have hstk : (applyOps ops w.fork).stack = w.state :: w.stack := by rw [s1, sf1]
  obtain ⟨fin1, fin2⟩ := finish_spec (applyOps ops w.fork) i1
  constructor
  · rw [fin2]
    have hreset : (applyOps ops w.fork).reset =
        WState.applyTo w.state { applyOps ops w.fork with stack := w.stack } := by
      simp only [Writer.reset, hstk]
    rw [hreset]
    show Writer.mk w.bufs w.buf w.pos w.len w.stack = w
    rfl
  · obtain ⟨i2, s2, e2⟩ := applyOps_spec ops Writer.init init_inv hp
    obtain ⟨fin3, _⟩ := finish_spec (applyOps ops Writer.init) i2
    rw [fin1, fin3, e1, e2, ef1]
    rfl

set_option maxRecDepth 10000 in
/-- C1 counterexample: the claimed protocol `fork(); writes; b = finish();
reset()` does not restore the pre-fork state.  With one byte written before the
fork, the trailing `reset()` finds an empty snapshot stack (because `finish`
already popped the fork snapshot) and clears the writer instead. -/
theorem c1_counterexample :
    ¬ (((((Writer.init.bool true).fork.bool false).finish).2.reset).bufs =
         (Writer.init.bool true).bufs ∧
       ((((Writer.init.bool true).fork.bool false).finish).2.reset).buf =
         (Writer.init.bool true).buf ∧
       ((((Writer.init.bool true).fork.bool false).finish).2.reset).pos =
         (Writer.init.bool true).pos ∧
       ((((Writer.init.bool true).fork.bool false).finish).2.reset).len =
         (Writer.init.bool true).len) := by
  decide

set_option maxRecDepth 10000 in
/-- C1 witness for the amended statement, at a concrete non-empty pre-fork
state and one concrete write. -/
theorem c1_witness :
    Writer.Inv (Writer.init.bool true) ∧
    (∀ op ∈ [WOp.boolOp false], op.prim = true) ∧
    ((applyOps [WOp.boolOp false] (Writer.init.bool true).fork).finish).2 =
      Writer.init.bool true ∧
    ((applyOps [WOp.boolOp false] (Writer.init.bool true).fork).finish).1 =
      ((applyOps [WOp.boolOp false] Writer.init).finish).1 := by
  have h := c1_fork_finish_restores (Writer.init.bool true) [WOp.boolOp false]
    (by decide) (by decide)
  exact ⟨by decide, by decide, h.1, h.2⟩

/-- C3: for `v < 2^32`, `uint32(v)` on a fresh writer finishes to exactly the
base-128 varint of `v` (7-bit groups LSB-first, continuation bit on every byte
but the last), and decoding those bytes yields `v` back. -/
theorem c3_uint32_varint (v : Nat) (hv : v < 2 ^ 32) :
    ((Writer.init.uint32 v).finish).1 = varintBytes v ∧
    varintDecode (varintBytes v) = v ∧
    varintBytes v ≠ [] ∧
    (∀ b ∈ (varintBytes v).dropLast, 128 ≤ b) ∧
    (∀ b, (varintBytes v).getLast? = some b → b < 128) := by
  obtain ⟨i1, s1, e1⟩ := uint32_spec Writer.init v init_inv
  rw [Nat.mod_eq_of_lt hv] at e1
  refine ⟨?_, varintDecode_varintBytes v, varintBytes_ne_nil v,
    varintBytes_dropLast_ge v, varintBytes_getLast_lt v⟩
  rw [(finish_spec _ i1).1, e1]
  rfl

/-- C3 witness: `writer.uint32(150).finish()` yields `[0x96, 0x01]`, which
decodes back to 150. -/
theorem c3_witness :
    ((Writer.init.uint32 150).finish).1 = [0x96, 0x01] ∧
    varintDecode [0x96, 0x01] = 150 := by
  obtain ⟨h1, h2, _⟩ := c3_uint32_varint 150 (by norm_num)
  have hv : varintBytes 150 = [0x96, 0x01] := by
    rw [varintBytes_mid (by norm_num) (by norm_num)]
    decide
  rw [hv] at h1 h2
  exact ⟨h1, h2⟩

/-! ### Claim C4: packed repeated encoding -/

theorem scalar_write_spec (t : ScalarType) (v : Nat) (w : Writer) (h : w.Inv) :
    (t.write w v).Inv ∧ (t.write w v).stack = w.stack ∧
    (t.write w v).emitted = w.emitted ++ t.enc v := by
  cases t with
  | uint32T => exact uint32_spec w v h
  | int32T => exact int32_spec w v h
  | boolT => exact bool_spec w (v != 0) h
  | fixed32T => exact fixed32_spec w v h

theorem scalarFold_spec (t : ScalarType) (value : List Nat) : ∀ w : Writer, w.Inv →
    (value.foldl (fun wv v => t.write wv v) w).Inv ∧
    (value.foldl (fun wv v => t.write wv v) w).stack = w.stack ∧
    (value.foldl (fun wv v => t.write wv v) w).emitted =
      w.emitted ++ (value.map t.enc).flatten := by
  induction value with
  | nil =>
    intro w h
    simp [h]
  | cons x rest ih =>
    intro w h
    obtain ⟨i1, s1, e1⟩ := scalar_write_spec t x w h
    obtain ⟨i2, s2, e2⟩ := ih (t.write w x) i1
    simp only [List.foldl_cons]
    refine ⟨i2, by rw [s2, s1], ?_⟩
    rw [e2, e1]
    simp

theorem scalar_enc_ne_nil (t : ScalarType) (v : Nat) : t.enc v ≠ [] := by
  cases t with
  | uint32T => exact varintBytes_ne_nil _
  | int32T => exact varintBytes_ne_nil _
  | boolT => simp [ScalarType.enc]
  | fixed32T => simp [ScalarType.enc]

theorem scalar_enc_lt_256 (t : ScalarType) (v : Nat) : ∀ b ∈ t.enc v, b < 256 := by
  cases t with
  | uint32T => exact varintBytes_lt_256 _
  | int32T => exact varintBytes_lt_256 _
  | boolT =>
    intro b hb
    simp only [ScalarType.enc, List.mem_singleton] at hb
    subst hb
    split <;> omega
  | fixed32T =>
    intro b hb
    have h32 : v % 2 ^ 32 < 2 ^ 32 := Nat.mod_lt _ (by norm_num)
    simp only [ScalarType.enc, List.mem_cons] at hb
    rcases hb with h | h | h | h
    · subst h; rw [and255]; omega
    · subst h; rw [and255]; omega
    · subst h; rw [and255]; omega
    · rcases h with h | h
      · subst h
        rw [Nat.shiftRight_eq_div_pow]
        norm_num at h32 ⊢
        omega
      · simp at h

theorem payload_ne_nil (t : ScalarType) (value : List Nat) (hv : value ≠ []) :
    (value.map t.enc).flatten ≠ [] := by
  cases value with
  | nil => exact absurd rfl hv
  | cons x rest =>
    simp only [List.map_cons, List.flatten_cons]
    intro hcontra
    exact scalar_enc_ne_nil t x (List.append_eq_nil.mp hcontra).1

theorem payload_lt_256 (t : ScalarType) (value : List Nat) :
    ∀ b ∈ (value.map t.enc).flatten, b < 256 := by
  intro b hb
  rw [List.mem_flatten] at hb
  obtain ⟨l, hl, hbl⟩ := hb
  rw [List.mem_map] at hl
  obtain ⟨v, _, hv⟩ := hl
  exact scalar_enc_lt_256 t v b (hv ▸ hbl)

theorem tagByte_eq (id : Nat) (hid : id ≤ 15) :
    (id <<< 3 ||| (2 &&& 7)) &&& 255 = 8 * id + 2 := by
  have h1 : (2 : Nat) &&& 7 = 2 := by decide
  have h2 : id <<< 3 = 2 ^ 3 * id := by
    rw [Nat.shiftLeft_eq]
    ring
  have h3 : (2 : Nat) ||| 2 ^ 3 * id = 2 ^ 3 * id + 2 := lor_eq_add 3 id 2 (by norm_num)
  rw [h1, h2, Nat.lor_comm, h3, and255]
  omega

/-- C4: for a resolved repeated field of packable (embedded) scalar type with
`packed` enabled, `Field.encode` with `N > 0` elements emits exactly one tag
byte `(id << 3 | 2)` (field id, wire type 2) followed by one length-delimited
block — the varint byte count then the bare concatenated element encodings —
and with `N = 0` elements emits nothing at all (the writer is unchanged). -/
theorem c4_packed_repeated (t : ScalarType) (id : Nat) (value : List Nat) (w : Writer)
    (hw : w.Inv) (hid : id ≤ 15)
    (hlen : ((value.map t.enc).flatten).length < 2 ^ 32) :
    (value = [] → encodePacked t id value w = w) ∧
    (value ≠ [] →
      (encodePacked t id value w).emitted =
        w.emitted ++ (8 * id + 2) :: (varintBytes ((value.map t.enc).flatten).length ++
          (value.map t.enc).flatten) ∧
      (value.map t.enc).flatten ≠ [] ∧
      (encodePacked t id value w).stack = w.stack) := by
  constructor
  · intro hv
    subst hv
    rfl
  · intro hv
    obtain ⟨if1, sf1, ef1⟩ := fork_spec w hw
    obtain ⟨i1, s1, e1⟩ := scalarFold_spec t value w.fork if1
    have hstk1 : (value.foldl (fun wv v => t.write wv v) w.fork).stack =
        w.state :: w.stack := by rw [s1, sf1]
    obtain ⟨fin1, fin2⟩ := finish_spec (value.foldl (fun wv v => t.write wv v) w.fork) i1
    have hemit : (value.foldl (fun wv v => t.write wv v) w.fork).emitted =
        (value.map t.enc).flatten := by
      rw [e1, ef1]
      simp
    have hr1 : ((value.foldl (fun wv v => t.write wv v) w.fork).finish).1 =
        (value.map t.enc).flatten := by rw [fin1, hemit]
    have hpay := payload_ne_nil t value hv
    have hr2 : ((value.foldl (fun wv v => t.write wv v) w.fork).finish).2 = w := by
      rw [fin2]
      have hreset : (value.foldl (fun wv v => t.write wv v) w.fork).reset =
          WState.applyTo w.state
            { value.foldl (fun wv v => t.write wv v) w.fork with stack := w.stack } := by
        simp only [Writer.reset, hstk1]
      rw [hreset]
      show Writer.mk w.bufs w.buf w.pos w.len w.stack = w
      rfl
    have hdef : encodePacked t id value w =
        if (((value.foldl (fun wv v => t.write wv v) w.fork).finish).1).length ≠ 0 then
          ((((value.foldl (fun wv v => t.write wv v) w.fork).finish).2).tag id 2).bytes
            (((value.foldl (fun wv v => t.write wv v) w.fork).finish).1)
        else ((value.foldl (fun wv v => t.write wv v) w.fork).finish).2 := rfl
    rw [hdef, if_pos (by rw [hr1, ne_eq, List.length_eq_zero]; exact hpay), hr1, hr2]
    obtain ⟨it, st, et⟩ := tag_spec w id 2 hw
    obtain ⟨ib, sb, eb⟩ := bytes_spec (w.tag id 2) ((value.map t.enc).flatten) it
    rw [if_pos (by rw [ne_eq, List.length_eq_zero]; exact hpay)] at eb
    rw [Nat.mod_eq_of_lt hlen, map_mod256 _ (payload_lt_256 t value)] at eb
    refine ⟨?_, hpay, by rw [sb, st]⟩
    rw [eb, et, tagByte_eq id hid]
    simp

/-- C4 witness: packed `repeated int32 = [1, 2, 150]` on field id 3 encodes to
`[0x1A, 0x04, 0x01, 0x02, 0x96, 0x01]`; an empty element list leaves the
writer untouched. -/
theorem c4_witness :
    (encodePacked ScalarType.int32T 3 [] Writer.init = Writer.init) ∧
    (encodePacked ScalarType.int32T 3 [1, 2, 150] Writer.init).emitted =
      [0x1A, 0x04, 0x01, 0x02, 0x96, 0x01] := by
  have h1 : varintBytes (1 % 2 ^ 32) = [1] := by
    rw [Nat.mod_eq_of_lt (by norm_num)]
    exact varintBytes_small (by norm_num)
  have h2 : varintBytes (2 % 2 ^ 32) = [2] := by
    rw [Nat.mod_eq_of_lt (by norm_num)]
    exact varintBytes_small (by norm_num)
  have h150 : varintBytes (150 % 2 ^ 32) = [150, 1] := by
    rw [Nat.mod_eq_of_lt (by norm_num), varintBytes_mid (by norm_num) (by norm_num)]
    decide
  have hpl : (([1, 2, 150].map ScalarType.int32T.enc)).flatten = [1, 2, 150, 1] := by
    simp only [List.map_cons, List.map_nil, ScalarType.enc, h1, h2, h150]
    rfl
  constructor
  · exact (c4_packed_repeated ScalarType.int32T 3 [] Writer.init init_inv (by norm_num)
      (by simp)).1 rfl
  · obtain ⟨he, _, _⟩ := (c4_packed_repeated ScalarType.int32T 3 [1, 2, 150] Writer.init
      init_inv (by norm_num) (by rw [hpl]; norm_num)).2 (by simp)
    rw [he, hpl]
    have h4 : varintBytes (([1, 2, 150, 1] : List Nat).length) = [4] :=
      varintBytes_small (by norm_num)
    rw [h4]
    rfl

/-! ### Claim C5: string encoding -/

theorem isHighSurr_false_of_lt {c : Nat} (h : c < 55296) : isHighSurr c = false := by
  simp only [isHighSurr, beq_eq_false_iff_ne, ne_eq]
  have h2 : c &&& 64512 ≤ c := Nat.and_le_left
  omega

theorem isLowSurr_false_of_lt {c : Nat} (h : c < 56320) : isLowSurr c = false := by
  simp only [isLowSurr, beq_eq_false_iff_ne, ne_eq]
  have h2 : c &&& 64512 ≤ c := Nat.and_le_left
  omega

theorem wfUtf16_cons (c1 : Nat) (rest : List Nat) :
    wfUtf16 (c1 :: rest) =
      (if 65536 ≤ c1 then false
       else if isHighSurr c1 then
         match rest with
         | c2 :: rest2 => isLowSurr c2 && wfUtf16 rest2
         | [] => false
       else !isLowSurr c1 && wfUtf16 rest) := by
  rw [wfUtf16.eq_def]

theorem wf_tail {c1 : Nat} {rest : List Nat} (h : wfUtf16 (c1 :: rest) = true)
    (hh : isHighSurr c1 = false) :
    c1 < 65536 ∧ isLowSurr c1 = false ∧ wfUtf16 rest = true := by
  rw [wfUtf16_cons] at h
  by_cases hc : 65536 ≤ c1
  · rw [if_pos hc] at h
    simp at h
  · rw [if_neg hc, hh] at h
    simp only [Bool.false_eq_true, if_false, Bool.and_eq_true, Bool.not_eq_true'] at h
    exact ⟨by omega, h.1, h.2⟩

theorem wf_pair {c1 c2 : Nat} {rest2 : List Nat} (h : wfUtf16 (c1 :: c2 :: rest2) = true)
    (hh : isHighSurr c1 = true) :
    c1 < 65536 ∧ isLowSurr c2 = true ∧ wfUtf16 rest2 = true := by
  rw [wfUtf16_cons] at h
  by_cases hc : 65536 ≤ c1
  · rw [if_pos hc] at h
    simp at h
  · rw [if_neg hc, hh] at h
    simp only [if_true, Bool.and_eq_true] at h
    exact ⟨by omega, h.1, h.2⟩

theorem wf_lone_high {c1 : Nat} (h : wfUtf16 [c1] = true) (hh : isHighSurr c1 = true) :
    False := by
  rw [wfUtf16_cons] at h
  by_cases hc : 65536 ≤ c1
  · rw [if_pos hc] at h
    simp at h
  · rw [if_neg hc, hh] at h
    simp at h

/-- The UTF-8 bytes of a well-formed UTF-16 sequence are all below 256. -/
theorem utf8Enc_lt_256 (l : List Nat) : wfUtf16 l = true → ∀ b ∈ utf8Enc l, b < 256 := by
  induction l using utf8Enc.induct with
  | case1 =>
    intro _ b hb
    simp [utf8Enc] at hb
  | case2 c1 rest h ih =>
    intro hwf b hb
    have hh : isHighSurr c1 = false := isHighSurr_false_of_lt (by omega)
    have henc : utf8Enc (c1 :: rest) = c1 :: utf8Enc rest := by
      rw [utf8Enc.eq_def]
      simp [h]
    rw [henc] at hb
    rcases List.mem_cons.mp hb with h2 | h2
    · omega
    · exact ih (wf_tail hwf hh).2.2 b h2
  | case3 c1 rest h1 h2 ih =>
    intro hwf b hb
    have hh : isHighSurr c1 = false := isHighSurr_false_of_lt (by omega)
    have henc : utf8Enc (c1 :: rest) =
        ((c1 >>> 6) ||| 192) :: ((c1 &&& 63) ||| 128) :: utf8Enc rest := by
      rw [utf8Enc.eq_def]
      simp [h1, h2]
    have hb1 : (c1 >>> 6) ||| 192 = 192 + c1 / 64 := by
      rw [Nat.shiftRight_eq_div_pow]
      norm_num
      exact or192_eq (by omega)
    have hb2 : (c1 &&& 63) ||| 128 = 128 + c1 % 64 := by
      rw [and63]
      exact or128_eq (by omega)
    rw [henc, hb1, hb2] at hb
    rcases List.mem_cons.mp hb with h3 | h3
    · omega
    · rcases List.mem_cons.mp h3 with h4 | h4
      · omega
      · exact ih (wf_tail hwf hh).2.2 b h4
  | case4 c1 h1 h2 h3 c2 rest2 h4 ih =>
    intro hwf b hb
    obtain ⟨hc1, hl2, hwfr⟩ := wf_pair hwf h3
    have henc : utf8Enc (c1 :: c2 :: rest2) =
        ((65536 + (c1 &&& 1023) <<< 10 + (c2 &&& 1023)) >>> 18 ||| 240) ::
        ((65536 + (c1 &&& 1023) <<< 10 + (c2 &&& 1023)) >>> 12 &&& 63 ||| 128) ::
        ((65536 + (c1 &&& 1023) <<< 10 + (c2 &&& 1023)) >>> 6 &&& 63 ||| 128) ::
        (65536 + (c1 &&& 1023) <<< 10 + (c2 &&& 1023) &&& 63 ||| 128) ::
        utf8Enc rest2 := by
      rw [utf8Enc.eq_def]
      simp [h1, h2, h3, h4]
    have hC : 65536 + (c1 &&& 1023) <<< 10 + (c2 &&& 1023) =
        65536 + (c1 % 1024) * 1024 + c2 % 1024 := by
      rw [and1023, and1023, Nat.shiftLeft_eq]
    have hk1 : 65536 + (c1 % 1024) * 1024 + c2 % 1024 < 1114112 := by omega
    have hB1 : (65536 + (c1 % 1024) * 1024 + c2 % 1024) >>> 18 ||| 240 =
        240 + (65536 + (c1 % 1024) * 1024 + c2 % 1024) / 262144 := by
      rw [Nat.shiftRight_eq_div_pow]
      norm_num
      exact or240_eq (by omega)
    have hB2 : (65536 + (c1 % 1024) * 1024 + c2 % 1024) >>> 12 &&& 63 ||| 128 =
        128 + ((65536 + (c1 % 1024) * 1024 + c2 % 1024) / 4096) % 64 := by
      rw [Nat.shiftRight_eq_div_pow, and63]
      norm_num
      exact or128_eq (by omega)
    have hB3 : (65536 + (c1 % 1024) * 1024 + c2 % 1024) >>> 6 &&& 63 ||| 128 =
        128 + ((65536 + (c1 % 1024) * 1024 + c2 % 1024) / 64) % 64 := by
      rw [Nat.shiftRight_eq_div_pow, and63]
      norm_num
      exact or128_eq (by omega)
    have hB4 : 65536 + (c1 % 1024) * 1024 + c2 % 1024 &&& 63 ||| 128 =
        128 + (65536 + (c1 % 1024) * 1024 + c2 % 1024) % 64 := by
      rw [and63]
      exact or128_eq (by omega)
    rw [henc, hC, hB1, hB2, hB3, hB4] at hb
    rcases List.mem_cons.mp hb with h5 | h5
    · omega
    · rcases List.mem_cons.mp h5 with h6 | h6
      · omega
      · rcases List.mem_cons.mp h6 with h7 | h7
        · omega
        · rcases List.mem_cons.mp h7 with h8 | h8
          · omega
          · exact ih hwfr b h8
  | case5 c1 h1 h2 h3 c2 rest2 h4 ih =>
    intro hwf
    obtain ⟨_, hl2, _⟩ := wf_pair hwf h3
    exact absurd hl2 h4
  | case6 c1 h1 h2 h3 =>
    intro hwf
    exact absurd (wf_lone_high hwf h3) (by simp)
  | case7 c1 rest h1 h2 h3 ih =>
    intro hwf b hb
    have hh : isHighSurr c1 = false := by
      cases hhc : isHighSurr c1 with
      | false => rfl
      | true => exact absurd hhc h3
    obtain ⟨hc1, _, hwfr⟩ := wf_tail hwf hh
    have henc : utf8Enc (c1 :: rest) = enc3 c1 ++ utf8Enc rest := by
      rw [utf8Enc.eq_def]
      simp [h1, h2, h3]
    have hB1 : (c1 >>> 12) ||| 224 = 224 + c1 / 4096 := by
      rw [Nat.shiftRight_eq_div_pow]
      norm_num
      exact or224_eq (by omega)
    have hB2 : (c1 >>> 6) &&& 63 ||| 128 = 128 + (c1 / 64) % 64 := by
      rw [Nat.shiftRight_eq_div_pow, and63]
      norm_num
      exact or128_eq (by omega)
    have hB3 : c1 &&& 63 ||| 128 = 128 + c1 % 64 := by
      rw [and63]
      exact or128_eq (by omega)
    rw [henc] at hb
    rcases List.mem_append.mp hb with h5 | h5
    · simp only [enc3, hB1, hB2, hB3, List.mem_cons] at h5
      rcases h5 with h6 | h6 | h6 | h6 <;> first | omega | simp at h6
    · exact ih hwfr b h5

/-- UTF-8 round trip: decoding the encoder's output of a well-formed UTF-16
sequence yields its code points. -/
theorem utf8_roundtrip (l : List Nat) : wfUtf16 l = true →
    utf8Decode (utf8Enc l) = some (codePoints l) := by
  induction l using utf8Enc.induct with
  | case1 =>
    intro _
    rw [utf8Enc.eq_def]
    rfl
  | case2 c1 rest h ih =>
    intro hwf
    have hh : isHighSurr c1 = false := isHighSurr_false_of_lt (by omega)
    have hwfr := (wf_tail hwf hh).2.2
    have henc : utf8Enc (c1 :: rest) = c1 :: utf8Enc rest := by
      rw [utf8Enc.eq_def]
      simp [h]
    have hcp : codePoints (c1 :: rest) = c1 :: codePoints rest := by
      rw [codePoints.eq_def]
      simp [hh]
    rw [henc, hcp, utf8Decode.eq_def]
    simp [h, ih hwfr]
  | case3 c1 rest h1 h2 ih =>
    intro hwf
    have hh : isHighSurr c1 = false := isHighSurr_false_of_lt (by omega)
    have hwfr := (wf_tail hwf hh).2.2
    have henc : utf8Enc (c1 :: rest) =
        (192 + c1 / 64) :: (128 + c1 % 64) :: utf8Enc rest := by
      rw [utf8Enc.eq_def]
      simp [h1, h2]
      constructor
      · rw [Nat.shiftRight_eq_div_pow]
        norm_num
        exact or192_eq (by omega)
      · rw [and63]
        exact or128_eq (by omega)
    have hcp : codePoints (c1 :: rest) = c1 :: codePoints rest := by
      rw [codePoints.eq_def]
      simp [hh]
    rw [henc, hcp, utf8Decode.eq_def]
    have hx1 : ¬(192 + c1 / 64 < 128) := by omega
    have hx2 : ¬(192 + c1 / 64 < 192) := by omega
    have hx3 : 192 + c1 / 64 < 224 := by omega
    have hcont : isCont (128 + c1 % 64) = true := by
      simp only [isCont, Bool.and_eq_true, decide_eq_true_eq]
      omega
    have ha1 : (192 + c1 / 64) &&& 31 = c1 / 64 := by rw [and31]; omega
    have ha2 : (128 + c1 % 64) &&& 63 = c1 % 64 := by rw [and63]; omega
    simp [hx1, hx2, hx3, hcont, ha1, ha2, ih hwfr,
      show c1 / 64 * 64 + c1 % 64 = c1 from by omega]
  | case4 c1 h1 h2 h3 c2 rest2 h4 ih =>
    intro hwf
    obtain ⟨hc1, hl2, hwfr⟩ := wf_pair hwf h3
    have hC : 65536 + (c1 &&& 1023) <<< 10 + (c2 &&& 1023) =
        65536 + (c1 % 1024) * 1024 + c2 % 1024 := by
      rw [and1023, and1023, Nat.shiftLeft_eq]
    have henc : utf8Enc (c1 :: c2 :: rest2) =
        (240 + (65536 + (c1 % 1024) * 1024 + c2 % 1024) / 262144) ::
        (128 + ((65536 + (c1 % 1024) * 1024 + c2 % 1024) / 4096) % 64) ::
        (128 + ((65536 + (c1 % 1024) * 1024 + c2 % 1024) / 64) % 64) ::
        (128 + (65536 + (c1 % 1024) * 1024 + c2 % 1024) % 64) ::
        utf8Enc rest2 := by
      rw [utf8Enc.eq_def]
      simp [h1, h2, h3, h4]
      rw [hC]
      refine ⟨?_, ?_, ?_, ?_⟩
      · rw [Nat.shiftRight_eq_div_pow]
        norm_num
        exact or240_eq (by omega)
      · rw [Nat.shiftRight_eq_div_pow, and63]
        norm_num
        exact or128_eq (by omega)
      · rw [Nat.shiftRight_eq_div_pow, and63]
        norm_num
        exact or128_eq (by omega)
      · rw [and63]
        exact or128_eq (by omega)
    have hcp : codePoints (c1 :: c2 :: rest2) =
        (65536 + (c1 % 1024) * 1024 + c2 % 1024) :: codePoints rest2 := by
      rw [codePoints.eq_def]
      simp [h3]
      rw [hC]
    rw [henc, hcp, utf8Decode.eq_def]
    have hx1 : ¬(240 + (65536 + (c1 % 1024) * 1024 + c2 % 1024) / 262144 < 128) := by omega
    have hx2 : ¬(240 + (65536 + (c1 % 1024) * 1024 + c2 % 1024) / 262144 < 192) := by omega
    have hx3 : ¬(240 + (65536 + (c1 % 1024) * 1024 + c2 % 1024) / 262144 < 224) := by omega
    have hx4 : ¬(240 + (65536 + (c1 % 1024) * 1024 + c2 % 1024) / 262144 < 240) := by omega
    have hx5 : 240 + (65536 + (c1 % 1024) * 1024 + c2 % 1024) / 262144 < 248 := by omega
    have hco1 : isCont (128 + ((65536 + (c1 % 1024) * 1024 + c2 % 1024) / 4096) % 64)
        = true := by
      simp only [isCont, Bool.and_eq_true, decide_eq_true_eq]
      omega
    have hco2 : isCont (128 + ((65536 + (c1 % 1024) * 1024 + c2 % 1024) / 64) % 64)
        = true := by
      simp only [isCont, Bool.and_eq_true, decide_eq_true_eq]
      omega
    have hco3 : isCont (128 + (65536 + (c1 % 1024) * 1024 + c2 % 1024) % 64) = true := by
      simp only [isCont, Bool.and_eq_true, decide_eq_true_eq]
      omega
    have ha1 : (240 + (65536 + (c1 % 1024) * 1024 + c2 % 1024) / 262144) &&& 7 =
        (65536 + (c1 % 1024) * 1024 + c2 % 1024) / 262144 := by
      rw [and7]; omega
    have ha2 : (128 + ((65536 + (c1 % 1024) * 1024 + c2 % 1024) / 4096) % 64) &&& 63 =
        ((65536 + (c1 % 1024) * 1024 + c2 % 1024) / 4096) % 64 := by
      rw [and63]; omega
    have ha3 : (128 + ((65536 + (c1 % 1024) * 1024 + c2 % 1024) / 64) % 64) &&& 63 =
        ((65536 + (c1 % 1024) * 1024 + c2 % 1024) / 64) % 64 := by
      rw [and63]; omega
    have ha4 : (128 + (65536 + (c1 % 1024) * 1024 + c2 % 1024) % 64) &&& 63 =
        (65536 + (c1 % 1024) * 1024 + c2 % 1024) % 64 := by
      rw [and63]; omega
    have hrec : (65536 + (c1 % 1024) * 1024 + c2 % 1024) / 262144 * 262144 +
        ((65536 + (c1 % 1024) * 1024 + c2 % 1024) / 4096) % 64 * 4096 +
        ((65536 + (c1 % 1024) * 1024 + c2 % 1024) / 64) % 64 * 64 +
        (65536 + (c1 % 1024) * 1024 + c2 % 1024) % 64 =
        65536 + (c1 % 1024) * 1024 + c2 % 1024 := by omega
    simp [hx1, hx2, hx3, hx4, hx5, hco1, hco2, hco3, ha1, ha2, ha3, ha4, ih hwfr, hrec]
  | case5 c1 h1 h2 h3 c2 rest2 h4 ih =>
    intro hwf
    obtain ⟨_, hl2, _⟩ := wf_pair hwf h3
    exact absurd hl2 h4
  | case6 c1 h1 h2 h3 =>
    intro hwf
    exact absurd (wf_lone_high hwf h3) (by simp)
  | case7 c1 rest h1 h2 h3 ih =>
    intro hwf
    have hh : isHighSurr c1 = false := by
      cases hhc : isHighSurr c1 with
      | false => rfl
      | true => exact absurd hhc h3
    obtain ⟨hc1, _, hwfr⟩ := wf_tail hwf hh
    have hg1 : (c1 >>> 12) ||| 224 = 224 + c1 / 4096 := by
      rw [Nat.shiftRight_eq_div_pow]
      norm_num
      exact or224_eq (by omega)
    have hg2 : (c1 >>> 6) &&& 63 ||| 128 = 128 + (c1 / 64) % 64 := by
      rw [Nat.shiftRight_eq_div_pow, and63]
      norm_num
      exact or128_eq (by omega)
    have hg3 : c1 &&& 63 ||| 128 = 128 + c1 % 64 := by
      rw [and63]
      exact or128_eq (by omega)
    have henc : utf8Enc (c1 :: rest) =
        (224 + c1 / 4096) :: (128 + (c1 / 64) % 64) :: (128 + c1 % 64) ::
          utf8Enc rest := by
      rw [utf8Enc.eq_def]
      simp [h1, h2, h3, enc3, hg1, hg2, hg3]
    have hcp : codePoints (c1 :: rest) = c1 :: codePoints rest := by
      rw [codePoints.eq_def]
      simp [hh]
    rw [henc, hcp, utf8Decode.eq_def]
    have hx1 : ¬(224 + c1 / 4096 < 128) := by omega
    have hx2 : ¬(224 + c1 / 4096 < 192) := by omega
    have hx3 : ¬(224 + c1 / 4096 < 224) := by omega
    have hx4 : 224 + c1 / 4096 < 240 := by omega
    have hco1 : isCont (128 + (c1 / 64) % 64) = true := by
      simp only [isCont, Bool.and_eq_true, decide_eq_true_eq]
      omega
    have hco2 : isCont (128 + c1 % 64) = true := by
      simp only [isCont, Bool.and_eq_true, decide_eq_true_eq]
      omega
    have ha1 : (224 + c1 / 4096) &&& 15 = c1 / 4096 := by rw [and15]; omega
    have ha2 : (128 + (c1 / 64) % 64) &&& 63 = (c1 / 64) % 64 := by rw [and63]; omega
    have ha3 : (128 + c1 % 64) &&& 63 = c1 % 64 := by rw [and63]; omega
    simp [hx1, hx2, hx3, hx4, hco1, hco2, ha1, ha2, ha3, ih hwfr,
      show c1 / 4096 * 4096 + (c1 / 64) % 64 * 64 + c1 % 64 = c1 from by omega]

/-- C5: for every well-formed UTF-16 string `s` (code units below 2^16,
surrogates properly paired — pairs join into 4-byte UTF-8 sequences),
`string(s)` on a fresh writer emits a varint length prefix equal to the exact
UTF-8 byte length of `s` followed by the UTF-8 encoding of `s`, and the body
decodes back to the code points of `s`. -/
theorem c5_string_roundtrip (s : List Nat) (hwf : wfUtf16 s = true)
    (hlen : utf8Len s < 2 ^ 32) :
    ((Writer.init.string s).finish).1 = varintBytes ((utf8Enc s).length) ++ utf8Enc s ∧
    utf8Len s = (utf8Enc s).length ∧
    utf8Decode (utf8Enc s) = some (codePoints s) := by
  obtain ⟨i1, s1, e1⟩ := string_spec Writer.init s init_inv
  refine ⟨?_, utf8Len_eq s, utf8_roundtrip s hwf⟩
  rw [(finish_spec _ i1).1, e1]
  by_cases hs : s.length ≠ 0
  · rw [if_pos hs, Nat.mod_eq_of_lt hlen, map_mod256 _ (utf8Enc_lt_256 s hwf), utf8Len_eq]
    rfl
  · have hsnil : s = [] := by
      rcases s with _ | ⟨c, r⟩
      · rfl
      · simp at hs
    subst hsnil
    rw [if_neg (by simp)]
    have h0 : utf8Enc ([] : List Nat) = [] := by rw [utf8Enc.eq_def]
    rw [h0]
    show ([] : List Nat) ++ [0] = varintBytes 0 ++ []
    rw [varintBytes_small (by norm_num)]
    simp

/-- C5 witness: `writer.string("€").finish()` — the euro sign is the single
UTF-16 unit 0x20AC — yields `[0x03, 0xE2, 0x82, 0xAC]`, and the body decodes
back to the code point 0x20AC. -/
theorem c5_witness :
    ((Writer.init.string [0x20AC]).finish).1 = [0x03, 0xE2, 0x82, 0xAC] ∧
    utf8Decode [0xE2, 0x82, 0xAC] = some [0x20AC] := by
  have hwf : wfUtf16 [0x20AC] = true := by decide
  have hhs : isHighSurr 8364 = false := by decide
  have hL0 : utf8Len ([] : List Nat) = 0 := by rw [utf8Len.eq_def]
  have hL : utf8Len [8364] = 3 := by
    rw [utf8Len.eq_def]
    simp [hhs, hL0]
  have hE0 : utf8Enc ([] : List Nat) = [] := by rw [utf8Enc.eq_def]
  have hE : utf8Enc [8364] = [226, 130, 172] := by
    rw [utf8Enc.eq_def]
    simp [hhs, hE0, enc3]
    decide
  have hcp : codePoints [8364] = [8364] := by
    rw [codePoints.eq_def]
    simp [hhs, show codePoints [] = [] from rfl]
  obtain ⟨hfin, _, hdec⟩ := c5_string_roundtrip [8364] hwf (by rw [hL]; norm_num)
  constructor
  · rw [hfin, hE]
    rw [show varintBytes (([226, 130, 172] : List Nat).length) = [3] from
      varintBytes_small (by norm_num)]
    rfl
  · rw [hE, hcp] at hdec
    exact hdec

/-! ### Claims C6 - C10: the reflection model -/

/-- C6: evaluating `add` at a parent holding a plain Namespace `n` with TWO
children `A`, `B` and adding a Type named `n`: the Type is installed and the
Namespace removed, but only the FIRST child `A` is moved into the Type — `B`
is dropped, because `each` breaks at the first non-`undefined` return value
and `add` returns the type.  The claim says every nested child is moved. -/
theorem c6_reparenting_moves_only_first_child :
    addObj parentP typeN =
      .ok (RObj.mk "P" RKind.nsK
        (some [RObj.mk "n" RKind.typeK (some [enumA]) none]) none) := by
  have h1 : addObj typeN enumA =
      .ok (RObj.mk "n" RKind.typeK (some [enumA]) none) := by
    rw [addObj.eq_def]
    rfl
  rw [addObj.eq_def]
  show (addObj typeN enumA).bind (fun obj2 =>
      (removeObj (RObj.mk "P" RKind.nsK (some [nsN]) none) nsN.name).bind (fun self2 =>
        installObj self2 obj2)) = _
  rw [h1]
  rfl

/-- C7: evaluating `addJSON` at a single entry whose body matches the Enum
classifier: the entry is classified and added, yet `addJSON` still throws,
because the `throw` sits outside the classifier loop.  The claim says a
matching entry is added without raising. -/
theorem c7_addJSON_always_throws :
    classify enumBody = some RKind.enumK ∧
    addJSON nsRootEmpty [("E", enumBody)] = .error "json.E" := by
  refine ⟨rfl, ?_⟩
  have h1 : addObj nsRootEmpty (fromJSONModel RKind.enumK "E" enumBody) =
      .ok (RObj.mk "root" RKind.nsK (some [RObj.mk "E" RKind.enumK none none]) none) := by
    rw [addObj.eq_def]
    rfl
  show (match addObj nsRootEmpty (fromJSONModel RKind.enumK "E" enumBody) with
    | Except.error e => (Except.error e : Except String RObj)
    | Except.ok _ => Except.error ("json." ++ "E")) = Except.error "json.E"
  rw [h1]
  rfl

/-- C8: evaluating `remove`: with children `A, B`, removing `A` drops the
whole map (losing `B`), because the `empty` getter is inverted; and removing
the only child `A` keeps an empty map.  The claim says exactly the opposite
on both counts. -/
theorem c8_remove_inverted_empty :
    removeObj nsM2 "A" = .ok (RObj.mk "M" RKind.nsK none none) ∧
    removeObj nsM1 "A" = .ok (RObj.mk "M" RKind.nsK (some []) none) :=
  ⟨rfl, rfl⟩

/-- C9: evaluating `Field.fromJSON` on a body with `"rule": "repeated"`: the
resulting field has `repeated = false`, because `fromJSON` passes `json.role`
(which does not exist) instead of `json.rule`; the constructor itself, handed
the rule directly, sets `repeated = true`.  The claim says the JSON rule
determines the flag. -/
theorem c9_fromJSON_reads_role :
    fieldFromJSON "f" ⟨some 1, some "int32", some "repeated", none, none⟩ =
      .ok { name := "f", rule := none, type := "int32", id := 1, extend := none,
            required := false, optional := true, repeated := false, map := false } ∧
    mkField "f" (some 1) (some "int32") (some "repeated") none =
      .ok { name := "f", rule := some "repeated", type := "int32", id := 1,
            extend := none, required := false, optional := true, repeated := true,
            map := false } :=
  ⟨rfl, rfl⟩

/-- C10: for a namespace with a parent and a relative dotted path of length at
least 2 whose first segment matches a nested object that cannot resolve the
remaining segments (no `lookup` method, or its lookup returns null), `lookup`
does not return null at that point: it retries the ENTIRE path at the parent. -/
theorem c10_lookup_retries_at_parent (cur parent : RObj) (rest : List RObj)
    (p0 p1 : String) (prest : List String) (f : RObj)
    (hrel : p0 ≠ "")
    (hf : getNested cur.nested p0 = some f)
    (hnores : f.hasLookup = false ∨
      nsLookup f (cur :: parent :: rest) (p1 :: prest) true = none) :
    nsLookup cur (parent :: rest) (p0 :: p1 :: prest) false =
      nsLookup parent rest (p0 :: p1 :: prest) false := by
  rw [nsLookup.eq_def]
  simp only [hrel, if_false, hf, List.isEmpty_cons]
  rcases hnores with hnl | hnone
  · simp [hnl]
  · by_cases hL : f.hasLookup
    · simp [hL, hnone]
    · simp [hL]

/-- C10 witness: `N` (child of `R`) holds an Enum named `A` without `lookup`;
`N.lookup("A.B")` equals `R.lookup("A.B")`. -/
theorem c10_witness :
    getNested nsN10.nested "A" = some enumA ∧
    enumA.hasLookup = false ∧
    nsLookup nsN10 [root10] ["A", "B"] false = nsLookup root10 [] ["A", "B"] false := by
  refine ⟨rfl, rfl, ?_⟩
  exact c10_lookup_retries_at_parent nsN10 root10 [] "A" "B" [] enumA (by decide) rfl
    (Or.inl rfl)

end Proto
